import Mathlib

/-!
# Verification of the cheque tx-builders and script signers

Shallow embedding of `src/tx_builder/cheque.rs`, `src/tx_builder/transfer.rs`
and `src/unlock/signer.rs` from the `ckb-sdk-rust` repository, together with
proofs and refutations of the specification's claims about them.

Byte strings are `List Nat` (each element a byte value); machine integers are
`Nat` with an explicit `% 2 ^ w` wherever the Rust code performs `u128`/`u64`
arithmetic that can overflow (release-mode Rust wraps).  A Rust panic (process
abort, e.g. an out-of-range slice or a failing `copy_from_slice`) is modelled
as a distinguished error constructor, separate from the errors the functions
actually return.  The blake2b-256 hash is an abstract parameter `blake2b`:
none of the claims depend on the hash's internals, only on where it is applied.
-/

-- Equality of `Except` results is decidable (used by the concrete
-- counterexample and witness evaluations).
deriving instance DecidableEq for Except

/-- Little-endian byte string of `n`, exactly `w` bytes
(`to_le_bytes` on `uW`; the caller guarantees `n < 2 ^ (8 * w)`). -/
def leBytes (w n : Nat) : List Nat :=
  match w with
  | 0 => []
  | w' + 1 => (n % 256) :: leBytes w' (n / 256)

/-- Numeric value of a little-endian byte string (`from_le_bytes`). -/
def fromLe (bs : List Nat) : Nat :=
  match bs with
  | [] => 0
  | b :: rest => b + 256 * fromLe rest

/-- 4-byte little-endian encoding (molecule `Uint32`). -/
def u32le (n : Nat) : List Nat := leBytes 4 n

/-- 8-byte little-endian encoding (witness length header in the signing digest). -/
def u64le (n : Nat) : List Nat := leBytes 8 n

/-- `ScriptHashType` enum of `ckb_types` (`data`, `type`, `data1`). -/
inductive ScriptHashType where
  | data
  | typ
  | data1
  deriving DecidableEq

/-- Byte written for a hash type in the canonical script serialization. -/
def ScriptHashType.toByte : ScriptHashType → Nat
  | .data => 0
  | .typ => 1
  | .data1 => 2

/-- `packed::Script`: 32-byte code hash, hash type, variable args. -/
structure Script where
  code_hash : List Nat
  hash_type : ScriptHashType
  args : List Nat
  deriving DecidableEq

/-- `ScriptId` (`src/types`): code hash plus hash type, the key for cell-dep
resolution. -/
structure ScriptId where
  code_hash : List Nat
  hash_type : ScriptHashType
  deriving DecidableEq

/-- `ScriptId::from(&Script)`. -/
def ScriptId.fromScript (s : Script) : ScriptId :=
  ⟨s.code_hash, s.hash_type⟩

/-- `packed::OutPoint`: transaction hash and output index. -/
structure OutPoint where
  tx_hash : List Nat
  index : Nat
  deriving DecidableEq

/-- `packed::CellInput`: previous out-point plus the 64-bit `since` timelock. -/
structure CellInput where
  previous_output : OutPoint
  since : Nat
  deriving DecidableEq

/-- `packed::CellOutput`: capacity (u64), lock script, optional type script.
Cell data lives separately, looked up through the dependency provider. -/
structure CellOutput where
  capacity : Nat
  lock : Script
  type_ : Option Script
  deriving DecidableEq

/-- `packed::CellDep`: identity of a resolved code dependency. -/
structure CellDep where
  out_point : OutPoint
  dep_type : Nat
  deriving DecidableEq

/-- The part of a `TransactionView` a builder populates: cell-deps, inputs,
outputs and outputs-data. -/
structure Transaction where
  cell_deps : List CellDep
  inputs : List CellInput
  outputs : List CellOutput
  outputs_data : List (List Nat)
  deriving DecidableEq

/-- `TxBuilderError`.  `panic` is not a Rust error value: it models a Rust
panic (process abort), used where the source indexes out of range or calls
`copy_from_slice` with mismatched lengths.  Error messages are dropped. -/
inductive TxBuilderError where
  | invalidParameter
  | resolveCellDepFailed (id : ScriptId)
  | dependency
  | panic
  deriving DecidableEq

/-- `TransactionDependencyProvider`: cell and cell-data lookup.  A `none`
result models the provider returning its error, which the builders bubble up. -/
structure TxDepProvider where
  get_cell : OutPoint → Option CellOutput
  get_cell_data : OutPoint → Option (List Nat)

/-- Canonical molecule serialization of a `Script` (table of code hash, hash
type byte, args); input of `calc_script_hash`. -/
def serializeScript (s : Script) : List Nat :=
  let body := s.code_hash ++ [s.hash_type.toByte] ++ (u32le s.args.length ++ s.args)
  u32le (16 + body.length) ++ u32le 16 ++ u32le 48 ++ u32le 49 ++ body

/-- `Script::calc_script_hash`: blake2b-256 of the canonical serialization.
The hash itself is the abstract parameter `blake2b` (output is 32 bytes). -/
def calcScriptHash (blake2b : List Nat → List Nat) (s : Script) : List Nat :=
  blake2b (serializeScript s)

/-- Modelled from the spec: `CHEQUE_CELL_SINCE` (`src/constants.rs`, not part
of the provided sources) is "a fixed protocol constant representing the
sender-withdraw timelock".  The claims compare against it only symbolically,
so any fixed value is faithful; this is the relative-epoch-6 since value. -/
def CHEQUE_CELL_SINCE : Nat := 0xA000000000000006

/-- `HashSet::insert` observed through the final `into_iter().collect()` list:
value-keyed set semantics, modelled as append-if-absent. -/
def hsInsert (s : List CellDep) (d : CellDep) : List CellDep :=
  if d ∈ s then s else s ++ [d]

/-- `true` exactly when a previous lock/type script was recorded and the
current one differs (`last_lock_script.as_ref() != Some(&lock_script)`). -/
def scriptMismatch (last : Option Script) (current : Script) : Bool :=
  match last with
  | none => false
  | some prev => decide (prev ≠ current)

/-- `ChequeClaimBuilder` (cheque.rs:17). -/
structure ChequeClaimBuilder where
  inputs : List CellInput
  receiver_input : CellInput
  sender_lock_script : Script

/-- The per-cheque-input loop of `ChequeClaimBuilder::build_base`
(cheque.rs:88-141).  Accumulators: dedup cell-dep set, total amount (u128,
wrapping), total capacity (u64, wrapping), last seen lock script.
Note the faithful transcription of cheque.rs:92, which reads the type script
from the *receiver* cell rather than the cheque input cell being validated. -/
def claimLoop (resolver : ScriptId → Option CellDep) (provider : TxDepProvider)
    (receiver_cell : CellOutput) (receiver_type : Script) :
    List CellInput → List CellDep → Nat → Nat → Option Script →
    Except TxBuilderError (List CellDep × Nat × Nat × Option Script)
  | [], deps, amt, cap, lastLock => .ok (deps, amt, cap, lastLock)
  | input :: rest, deps, amt, cap, lastLock =>
    match provider.get_cell input.previous_output with
    | none => .error .dependency
    | some input_cell =>
    match provider.get_cell_data input.previous_output with
    | none => .error .dependency
    | some input_data =>
    match receiver_cell.type_ with
    | none => .error .invalidParameter
    | some type_script =>
    if input_data.length ≠ 16 then .error .invalidParameter
    else if type_script ≠ receiver_type then .error .invalidParameter
    else if scriptMismatch lastLock input_cell.lock then .error .invalidParameter
    else
    match resolver (ScriptId.fromScript input_cell.lock) with
    | none => .error (.resolveCellDepFailed (ScriptId.fromScript input_cell.lock))
    | some lock_dep =>
      claimLoop resolver provider receiver_cell receiver_type rest
        (hsInsert deps lock_dep)
        ((amt + fromLe input_data) % 2 ^ 128)
        ((cap + input_cell.capacity) % 2 ^ 64)
        (some input_cell.lock)

/-- `ChequeClaimBuilder::build_base` (cheque.rs:31-183). -/
def chequeClaimBuildBase (blake2b : List Nat → List Nat) (b : ChequeClaimBuilder)
    (resolver : ScriptId → Option CellDep) (provider : TxDepProvider) :
    Except TxBuilderError Transaction :=
  if b.inputs = [] then .error .invalidParameter
  else
  match provider.get_cell b.receiver_input.previous_output with
  | none => .error .dependency
  | some receiver_cell =>
  match provider.get_cell_data b.receiver_input.previous_output with
  | none => .error .dependency
  | some receiver_data =>
  match receiver_cell.type_ with
  | none => .error .invalidParameter
  | some receiver_type =>
  if receiver_data.length ≠ 16 then .error .invalidParameter
  else
  match resolver (ScriptId.fromScript receiver_type) with
  | none => .error (.resolveCellDepFailed (ScriptId.fromScript receiver_type))
  | some type_dep =>
  match resolver (ScriptId.fromScript receiver_cell.lock) with
  | none => .error (.resolveCellDepFailed (ScriptId.fromScript receiver_cell.lock))
  | some lock_dep =>
  match claimLoop resolver provider receiver_cell receiver_type b.inputs
      (hsInsert (hsInsert [] type_dep) lock_dep) 0 0 none with
  | .error e => .error e
  | .ok (deps, cheque_amt, cheque_cap, lastLock) =>
  match lastLock with
  | none => .error .panic
  | some cheque_lock =>
  if cheque_lock.args.length ≠ 40 then .error .invalidParameter
  else if (calcScriptHash blake2b b.sender_lock_script).take 20 ≠ cheque_lock.args.drop 20
  then .error .invalidParameter
  else
    .ok { cell_deps := deps
          inputs := b.inputs ++ [b.receiver_input]
          outputs := [receiver_cell,
                      { capacity := cheque_cap, lock := b.sender_lock_script, type_ := none }]
          outputs_data := [leBytes 16 ((fromLe receiver_data + cheque_amt) % 2 ^ 128), []] }

/-- `ChequeWithdrawBuilder` (cheque.rs:186). -/
structure ChequeWithdrawBuilder where
  out_points : List OutPoint
  sender_lock_script : Script

/-- The per-out-point loop of `ChequeWithdrawBuilder::build_base`
(cheque.rs:214-254).  No data-length guard exists in the source: the
`copy_from_slice` at cheque.rs:245 panics unless the data is 16 bytes. -/
def withdrawLoop (provider : TxDepProvider) :
    List OutPoint → List CellInput → Option Script → Option Script → Nat → Nat →
    Except TxBuilderError (List CellInput × Option Script × Option Script × Nat × Nat)
  | [], inputs, lastLock, lastType, amt, cap => .ok (inputs, lastLock, lastType, amt, cap)
  | op :: rest, inputs, lastLock, lastType, amt, cap =>
    match provider.get_cell op with
    | none => .error .dependency
    | some cell =>
    match provider.get_cell_data op with
    | none => .error .dependency
    | some data =>
    match cell.type_ with
    | none => .error .invalidParameter
    | some type_script =>
    if scriptMismatch lastLock cell.lock then .error .invalidParameter
    else if scriptMismatch lastType type_script then .error .invalidParameter
    else if data.length ≠ 16 then .error .panic
    else
      withdrawLoop provider rest (inputs ++ [⟨op, CHEQUE_CELL_SINCE⟩])
        (some cell.lock) (some type_script)
        ((amt + fromLe data) % 2 ^ 128)
        ((cap + cell.capacity) % 2 ^ 64)

/-- `ChequeWithdrawBuilder::build_base` (cheque.rs:195-305).  The cell-dep
list is built with `vec![lock_cell_dep, type_cell_dep]` (cheque.rs:294),
without deduplication. -/
def chequeWithdrawBuildBase (blake2b : List Nat → List Nat) (b : ChequeWithdrawBuilder)
    (resolver : ScriptId → Option CellDep) (provider : TxDepProvider) :
    Except TxBuilderError Transaction :=
  if b.out_points = [] then .error .invalidParameter
  else
  match withdrawLoop provider b.out_points [] none none 0 0 with
  | .error e => .error e
  | .ok (inputs, lastLock, lastType, cheque_amt, cheque_cap) =>
  match lastLock, lastType with
  | none, _ => .error .panic
  | _, none => .error .panic
  | some cheque_lock, some type_script =>
  match resolver (ScriptId.fromScript cheque_lock) with
  | none => .error (.resolveCellDepFailed (ScriptId.fromScript cheque_lock))
  | some lock_dep =>
  match resolver (ScriptId.fromScript type_script) with
  | none => .error (.resolveCellDepFailed (ScriptId.fromScript type_script))
  | some type_dep =>
  if cheque_lock.args.length ≠ 40 then .error .invalidParameter
  else if (calcScriptHash blake2b b.sender_lock_script).take 20 ≠ cheque_lock.args.drop 20
  then .error .invalidParameter
  else
    .ok { cell_deps := [lock_dep, type_dep]
          inputs := inputs
          outputs := [{ capacity := cheque_cap, lock := b.sender_lock_script,
                        type_ := some type_script }]
          outputs_data := [leBytes 16 cheque_amt] }

/-- `CapacityTransferBuilder` (transfer.rs:18). -/
structure CapacityTransferBuilder where
  outputs : List (CellOutput × List Nat)

/-- The output loop of `CapacityTransferBuilder::build_base`
(transfer.rs:34-44): push output and data, resolve the type script's cell-dep
when present, into a dedup set. -/
def transferLoop (resolver : ScriptId → Option CellDep) :
    List (CellOutput × List Nat) → List CellDep → List CellOutput → List (List Nat) →
    Except TxBuilderError (List CellDep × List CellOutput × List (List Nat))
  | [], deps, outs, datas => .ok (deps, outs, datas)
  | (o, d) :: rest, deps, outs, datas =>
    match o.type_ with
    | none => transferLoop resolver rest deps (outs ++ [o]) (datas ++ [d])
    | some ts =>
      match resolver (ScriptId.fromScript ts) with
      | none => .error (.resolveCellDepFailed (ScriptId.fromScript ts))
      | some cd => transferLoop resolver rest (hsInsert deps cd) (outs ++ [o]) (datas ++ [d])

/-- `CapacityTransferBuilder::build_base` (transfer.rs:22-51). -/
def capacityTransferBuildBase (b : CapacityTransferBuilder)
    (resolver : ScriptId → Option CellDep) :
    Except TxBuilderError Transaction :=
  match transferLoop resolver b.outputs [] [] [] with
  | .error e => .error e
  | .ok (deps, outs, datas) =>
    .ok { cell_deps := deps, inputs := [], outputs := outs, outputs_data := datas }

/-! ## Signer side (`src/unlock/signer.rs`) -/

/-- The part of a `TransactionView` the signers read and write.  `hash` is the
transaction hash, computed over the raw transaction (witnesses excluded), so
`as_advanced_builder().set_witnesses(..).build()` preserves it; `inputs_len`
is the input count (the signers use nothing else about the inputs). -/
structure TxView where
  hash : List Nat
  inputs_len : Nat
  witnesses : List (List Nat)
  deriving DecidableEq

/-- `ckb_script::ScriptGroup` restricted to what the signers read: the group's
script and its input indices (non-empty by the caller's contract; indexing an
empty vector would panic in the source). -/
structure ScriptGroup where
  script : Script
  input_indices : List Nat

/-- `SignError`.  `panic` models a Rust panic (out-of-range slice or
`copy_from_slice` length mismatch), not a returned error value. -/
inductive SignError where
  | wallet
  | witnessNotEnough
  | invalidWitnessArgs
  | tooManySignatures
  | panic
  deriving DecidableEq

/-- `packed::WitnessArgs`: three optional byte fields. -/
structure WitnessArgs where
  lock : Option (List Nat)
  input_type : Option (List Nat)
  output_type : Option (List Nat)
  deriving DecidableEq

/-- `WitnessArgs::default()`. -/
def WitnessArgs.empty : WitnessArgs :=
  ⟨none, none, none⟩

/-- Molecule `BytesOpt` serialization: absent is the empty string, present is
a 4-byte little-endian length header followed by the bytes. -/
def serializeBytesOpt : Option (List Nat) → List Nat
  | none => []
  | some bs => u32le bs.length ++ bs

/-- Canonical molecule serialization of a `WitnessArgs` table: full size,
three field offsets (all `u32` little-endian), then the three fields. -/
def serializeWitnessArgs (w : WitnessArgs) : List Nat :=
  let f1 := serializeBytesOpt w.lock
  let f2 := serializeBytesOpt w.input_type
  let f3 := serializeBytesOpt w.output_type
  let off2 := 16 + f1.length
  let off3 := off2 + f2.length
  let total := off3 + f3.length
  u32le total ++ u32le 16 ++ u32le off2 ++ u32le off3 ++ f1 ++ f2 ++ f3

/-- Molecule `BytesOpt` parsing: inverse of `serializeBytesOpt`. -/
def parseBytesOpt (bs : List Nat) : Option (Option (List Nat)) :=
  if bs = [] then some none
  else if 4 ≤ bs.length ∧ fromLe (bs.take 4) = bs.length - 4 then some (some (bs.drop 4))
  else none

/-- `WitnessArgs::from_slice`: parse and validate the canonical table layout;
`none` models the molecule `VerificationError`. -/
def parseWitnessArgs (bs : List Nat) : Option WitnessArgs :=
  if 16 ≤ bs.length ∧
      fromLe (bs.take 4) = bs.length ∧
      fromLe ((bs.drop 4).take 4) = 16 ∧
      16 ≤ fromLe ((bs.drop 8).take 4) ∧
      fromLe ((bs.drop 8).take 4) ≤ fromLe ((bs.drop 12).take 4) ∧
      fromLe ((bs.drop 12).take 4) ≤ bs.length then
    let off2 := fromLe ((bs.drop 8).take 4)
    let off3 := fromLe ((bs.drop 12).take 4)
    match parseBytesOpt ((bs.drop 16).take (off2 - 16)),
          parseBytesOpt ((bs.drop off2).take (off3 - off2)),
          parseBytesOpt (bs.drop off3) with
    | some f1, some f2, some f3 => some ⟨f1, f2, f3⟩
    | _, _, _ => none
  else none

/-- The parse-or-default pattern the signers apply to a witness
(signer.rs:72-76, 168-172, 318-322): an empty witness is a default
`WitnessArgs`; a non-empty one must parse. -/
def parseOrDefaultWitnessArgs (witness_data : List Nat) : Option WitnessArgs :=
  if witness_data = [] then some WitnessArgs.empty
  else parseWitnessArgs witness_data

/-- `ScriptSigner::generate_message` (signer.rs:60-124): the canonical signing
digest.  `blake2b` is the abstract blake2b-256. -/
def generateMessage (blake2b : List Nat → List Nat) (tx : TxView) (g : ScriptGroup)
    (zero_lock : List Nat) : Except SignError (List Nat) :=
  match g.input_indices with
  | [] => .error .panic
  | i :: restIdx =>
    if tx.witnesses.length ≤ i then .error .witnessNotEnough
    else
    let witness_data := (tx.witnesses.get? i).getD []
    match parseOrDefaultWitnessArgs witness_data with
    | none => .error .invalidWitnessArgs
    | some w0 =>
      let init_witness := serializeWitnessArgs { w0 with lock := some zero_lock }
      let other := (restIdx.filterMap (fun idx => tx.witnesses.get? idx)).map
        (fun w => u64le w.length ++ w)
      let outer := if tx.inputs_len < tx.witnesses.length then
          (tx.witnesses.drop tx.inputs_len).map (fun w => u64le w.length ++ w)
        else []
      .ok (blake2b (tx.hash ++ u64le init_witness.length ++ init_witness ++
        other.flatten ++ outer.flatten))

/-- The `Wallet` dependency interface.  `sign` takes the owner id and the
32-byte message; the transaction and dependency-provider arguments of the
source are consumed only by the wallet itself, and the claims' determinism
hypothesis (same owner and message give the same signature) is realized by
making `sign` a pure function of these two.  `none` models a `WalletError`. -/
structure Wallet where
  match_id : List Nat → Bool
  sign : List Nat → List Nat → Option (List Nat)

/-- The witness-padding loop shared by the signers (signer.rs:151-153):
push empty witnesses until position `i` exists. -/
def padWitnesses (ws : List (List Nat)) (i : Nat) : List (List Nat) :=
  ws ++ List.replicate (i + 1 - ws.length) []

/-- `Secp256k1SighashSigner::sign_tx_with_owner_id` (signer.rs:142-179). -/
def sighashSignTxWithOwnerId (blake2b : List Nat → List Nat) (wallet : Wallet)
    (owner_id : List Nat) (tx : TxView) (g : ScriptGroup) :
    Except SignError TxView :=
  match g.input_indices with
  | [] => .error .panic
  | i :: _ =>
    let witnesses := padWitnesses tx.witnesses i
    let tx_new := { tx with witnesses := witnesses }
    match generateMessage blake2b tx_new g (List.replicate 65 0) with
    | .error e => .error e
    | .ok message =>
    match wallet.sign owner_id message with
    | none => .error .wallet
    | some signature =>
    let witness_data := (witnesses.get? i).getD []
    match parseOrDefaultWitnessArgs witness_data with
    | none => .error .invalidWitnessArgs
    | some current =>
      .ok { tx with witnesses :=
        witnesses.set i (serializeWitnessArgs { current with lock := some signature }) }

/-- `MultisigConfig` (signer.rs:198-202).  The fields are `u8` in the source;
`to_witness_data` writes them as single bytes. -/
structure MultisigConfig where
  sighash_addresses : List (List Nat)
  require_first_n : Nat
  threshold : Nat

/-- `MultisigConfig::to_witness_data` (signer.rs:238-250): fixed 4-byte header
`[0, require_first_n, threshold, n]` followed by the 20-byte addresses
(`len() as u8` truncates modulo 256). -/
def MultisigConfig.to_witness_data (c : MultisigConfig) : List Nat :=
  [0, c.require_first_n, c.threshold, c.sighash_addresses.length % 256] ++
    c.sighash_addresses.flatten

/-- The signature-placement scan of `Secp256k1MultisigSigner::sign_tx`
(signer.rs:328-343), with an explicit fuel so the recursion is structural
(the wrapper `placeLoop` passes fuel `lf.length + 1`, which always suffices:
`placeLoopGo_congr` shows the result is fuel-independent from there on).
Starting at `idx`, compare each 65-byte slot with the signature (stop if
equal), write into the first all-zero slot, else advance by 65.  The source's
`lock_field[idx..idx+65]` slice panics when fewer than 65 bytes remain, and
`copy_from_slice` panics when the signature is not 65 bytes. -/
def placeLoopGo (lf sig : List Nat) : Nat → Nat → Except SignError (List Nat)
  | 0, _ => .error .tooManySignatures
  | fuel + 1, idx =>
    if idx < lf.length then
      if lf.length < idx + 65 then .error .panic
      else
        let slot := (lf.drop idx).take 65
        if slot = sig then .ok lf
        else if slot = List.replicate 65 0 then
          if sig.length = 65 then .ok (lf.take idx ++ sig ++ lf.drop (idx + 65))
          else .error .panic
        else placeLoopGo lf sig fuel (idx + 65)
    else .error .tooManySignatures

/-- The placement scan of signer.rs:328-343 entered at `idx`. -/
def placeLoop (lf sig : List Nat) (idx : Nat) : Except SignError (List Nat) :=
  placeLoopGo lf sig (lf.length + 1) idx

/-- The fold of `placeLoop` over the produced signatures (signer.rs:328-343);
placement always restarts at the end of the config data. -/
def placeAll (cfgLen : Nat) (lf : List Nat) : List (List Nat) → Except SignError (List Nat)
  | [] => .ok lf
  | sig :: rest =>
    match placeLoop lf sig cfgLen with
    | .error e => .error e
    | .ok lf' => placeAll cfgLen lf' rest

/-- `mapM`-style collection of the wallet's signatures over the matching
configured addresses (signer.rs:305-314). -/
def collectSignatures (wallet : Wallet) (message : List Nat) :
    List (List Nat) → Except SignError (List (List Nat))
  | [] => .ok []
  | id :: rest =>
    match wallet.sign id message with
    | none => .error .wallet
    | some sig =>
      match collectSignatures wallet message rest with
      | .error e => .error e
      | .ok sigs => .ok (sig :: sigs)

/-- `Secp256k1MultisigSigner::sign_tx` (signer.rs:283-351). -/
def multisigSignTx (blake2b : List Nat → List Nat) (wallet : Wallet)
    (config : MultisigConfig) (tx : TxView) (g : ScriptGroup) :
    Except SignError TxView :=
  match g.input_indices with
  | [] => .error .panic
  | i :: _ =>
    let witnesses := padWitnesses tx.witnesses i
    let tx_new := { tx with witnesses := witnesses }
    let config_data := config.to_witness_data
    let zero_lock := config_data ++ List.replicate (65 * config.threshold) 0
    match generateMessage blake2b tx_new g zero_lock with
    | .error e => .error e
    | .ok message =>
    match collectSignatures wallet message
        (config.sighash_addresses.filter (fun id => wallet.match_id id)) with
    | .error e => .error e
    | .ok signatures =>
    let witness_data := (witnesses.get? i).getD []
    match parseOrDefaultWitnessArgs witness_data with
    | none => .error .invalidWitnessArgs
    | some current =>
    match placeAll config_data.length (current.lock.getD zero_lock) signatures with
    | .error e => .error e
    | .ok lock_field =>
      .ok { tx with witnesses :=
        witnesses.set i (serializeWitnessArgs { current with lock := some lock_field }) }

/-- `AnyoneCanPaySigner::match_args` (signer.rs:359-362).  The source takes
`&args[0..20]` before any length check, so the call panics (`none`) for args
shorter than 20 bytes. -/
def acpMatchArgs (wallet : Wallet) (args : List Nat) : Option Bool :=
  if args.length < 20 then none
  else some (decide (20 ≤ args.length) && decide (args.length ≤ 22) &&
    wallet.match_id (args.take 20))

/-! ## Specification-side definitions

The following definitions are written from the specification's words, to be
compared with the source-derived functions above (refinement claims) or to
express the claimed properties of build results. -/

/-- Spec §8.1: capacity of the cell referenced by an out-point (0 when the
provider knows no such cell; every successful build resolved all its cells). -/
def chequeCapacityAt (provider : TxDepProvider) (op : OutPoint) : Nat :=
  ((provider.get_cell op).map CellOutput.capacity).getD 0

/-- Spec §8.1: token amount stored in the data of the cell at an out-point. -/
def chequeAmountAt (provider : TxDepProvider) (op : OutPoint) : Nat :=
  fromLe ((provider.get_cell_data op).getD [])

/-- Spec §8.1: total capacity of the cells referenced by a list of inputs. -/
def inputCapacitySum (provider : TxDepProvider) (inputs : List CellInput) : Nat :=
  (inputs.map (fun inp => chequeCapacityAt provider inp.previous_output)).sum

/-- Spec §8.1: total capacity of a transaction's outputs. -/
def outputCapacitySum (tx : Transaction) : Nat :=
  (tx.outputs.map CellOutput.capacity).sum

/-- Spec §4.5.1: `le_u64(raw_byte_count) || raw_bytes` encoding of one witness. -/
def witnessEnc (w : List Nat) : List Nat :=
  u64le w.length ++ w

/-- Spec §4.5.1, written from the specification's words: the digest is
blake2b-256 of `tx.hash || le_u64(len(init_witness)) || init_witness ||
Σ_other || Σ_outer`, where `Σ_other` walks the remaining input indices
(skipping a missing witness) and `Σ_outer` walks the witness positions from
the input count up to the witness count.  The first input index and the rest
are passed separately, as the spec speaks of them separately. -/
def generateMessageSpec (blake2b : List Nat → List Nat) (tx : TxView) (i : Nat)
    (rest : List Nat) (zero_lock : List Nat) : Except SignError (List Nat) :=
  if tx.witnesses.length ≤ i then .error .witnessNotEnough
  else
  let witness_data := (tx.witnesses.get? i).getD []
  match parseOrDefaultWitnessArgs witness_data with
  | none => .error .invalidWitnessArgs
  | some w0 =>
    let init_witness := serializeWitnessArgs { w0 with lock := some zero_lock }
    let sOther := rest.foldr (fun idx acc =>
        match tx.witnesses.get? idx with
        | some w => witnessEnc w ++ acc
        | none => acc) []
    let sOuter := (List.range' tx.inputs_len (tx.witnesses.length - tx.inputs_len)).foldr
        (fun idx acc =>
          match tx.witnesses.get? idx with
          | some w => witnessEnc w ++ acc
          | none => acc) []
    .ok (blake2b (tx.hash ++ witnessEnc init_witness ++ sOther ++ sOuter))

/-- Spec §4.5.3 step 5, written from the specification's words: scan the
65-byte slots; stop at a slot equal to the signature; write into the first
all-zero slot; `none` when the slots are exhausted. -/
def placeSlots (sig : List Nat) : List (List Nat) → Option (List (List Nat))
  | [] => none
  | b :: bs =>
    if b = sig then some (b :: bs)
    else if b = List.replicate 65 0 then some (sig :: bs)
    else (placeSlots sig bs).map (b :: ·)

/-- Split a byte string into consecutive 65-byte slots (the last slot is
short when the length is not a multiple of 65); fuel-structural, the wrapper
`chunk65` passes fuel `l.length`, which always suffices. -/
def chunk65Go : Nat → List Nat → List (List Nat)
  | 0, _ => []
  | fuel + 1, l => if l = [] then [] else l.take 65 :: chunk65Go fuel (l.drop 65)

/-- Split a byte string into consecutive 65-byte slots. -/
def chunk65 (l : List Nat) : List (List Nat) :=
  chunk65Go l.length l

/-- Fold of `placeSlots` over the produced signatures; exhaustion is
`TooManySignatures`. -/
def placeAllSpec (blocks : List (List Nat)) : List (List Nat) →
    Except SignError (List (List Nat))
  | [] => .ok blocks
  | sig :: rest =>
    match placeSlots sig blocks with
    | none => .error .tooManySignatures
    | some blocks' => placeAllSpec blocks' rest

/-- Spec §4.5.3, written from the specification's words: multisig signing with
the slot scan performed on whole 65-byte slots after the config data.  Digest,
signature collection and witness handling are shared with the source model;
only the in-progress lock field manipulation follows the spec's slot wording. -/
def multisigSignSpec (blake2b : List Nat → List Nat) (wallet : Wallet)
    (config : MultisigConfig) (tx : TxView) (g : ScriptGroup) :
    Except SignError TxView :=
  match g.input_indices with
  | [] => .error .panic
  | i :: _ =>
    let witnesses := padWitnesses tx.witnesses i
    let tx_new := { tx with witnesses := witnesses }
    let config_data := config.to_witness_data
    let zero_lock := config_data ++ List.replicate (65 * config.threshold) 0
    match generateMessage blake2b tx_new g zero_lock with
    | .error e => .error e
    | .ok message =>
    match collectSignatures wallet message
        (config.sighash_addresses.filter (fun id => wallet.match_id id)) with
    | .error e => .error e
    | .ok signatures =>
    let witness_data := (witnesses.get? i).getD []
    match parseOrDefaultWitnessArgs witness_data with
    | none => .error .invalidWitnessArgs
    | some current =>
    let lock_field := current.lock.getD zero_lock
    match placeAllSpec (chunk65 (lock_field.drop config_data.length)) signatures with
    | .error e => .error e
    | .ok blocks =>
      .ok { tx with witnesses :=
        witnesses.set i (serializeWitnessArgs { current with
          lock := some (lock_field.take config_data.length ++ blocks.flatten) }) }

/-! ## Concrete fixtures

Closed inputs used by counterexamples and witnesses.  `hash0` stands in for
blake2b-256 (the claims never depend on the hash's internals); its output is
32 bytes, and the cheque lock args are chosen so that the sender-lock-hash
prefix check passes. -/

/-- Fixture hash function: constant 32-byte output `[0, 1, …, 31]`. -/
def hash0 : List Nat → List Nat := fun _ => List.range 32

/-- Fixture out-point with the given index. -/
def mkOutPoint (n : Nat) : OutPoint := ⟨List.replicate 32 0, n⟩

/-- Fixture cell-dep returned by the all-purpose resolver `res0`. -/
def d0 : CellDep := ⟨⟨List.replicate 32 7, 0⟩, 0⟩

/-- Second fixture cell-dep (distinct from `d0`). -/
def d1 : CellDep := ⟨⟨List.replicate 32 7, 0⟩, 1⟩

/-- Third fixture cell-dep (distinct from `d0` and `d1`). -/
def d2 : CellDep := ⟨⟨List.replicate 32 7, 0⟩, 2⟩

/-- Fixture sender lock script. -/
def senderLock : Script := ⟨List.replicate 32 1, .typ, [1]⟩

/-- Fixture receiver lock script. -/
def receiverLock : Script := ⟨List.replicate 32 2, .typ, [2]⟩

/-- Fixture SUDT type script. -/
def typeT : Script := ⟨List.replicate 32 3, .typ, [3]⟩

/-- Fixture cheque lock script: 40-byte args whose second half equals the
first 20 bytes of `hash0`'s output, so the sender-hash check passes. -/
def chequeLock : Script := ⟨List.replicate 32 4, .typ, List.replicate 20 9 ++ List.range 20⟩

/-- Resolver mapping every script id to the same cell-dep `d0`. -/
def res0 : ScriptId → Option CellDep := fun _ => some d0

/-- Resolver mapping the cheque lock to `d1` and every other script to `d2`. -/
def res1 : ScriptId → Option CellDep := fun sid =>
  if sid = ScriptId.fromScript chequeLock then some d1 else some d2

/-- Claim-path provider with two cheque cells of capacity `2 ^ 63` each
(indices 0 and 1) and a receiver cell at index 2: the capacity sum overflows
`u64`. -/
def c1Provider : TxDepProvider :=
  { get_cell := fun op =>
      if op.index = 2 then some ⟨100, receiverLock, some typeT⟩
      else if op.index ≤ 1 then some ⟨2 ^ 63, chequeLock, some typeT⟩
      else none
    get_cell_data := fun op =>
      if op.index = 2 then some (leBytes 16 5)
      else if op.index ≤ 1 then some (leBytes 16 1)
      else none }

/-- Claim builder over out-points 0 and 1 (cheques) and 2 (receiver). -/
def c1Builder : ChequeClaimBuilder :=
  ⟨[⟨mkOutPoint 0, 0⟩, ⟨mkOutPoint 1, 0⟩], ⟨mkOutPoint 2, 0⟩, senderLock⟩

/-- Claim-path provider with small, non-overflowing cells: two cheques of
capacity 200, amount 1 each; receiver of capacity 100, amount 5. -/
def cwProvider : TxDepProvider :=
  { get_cell := fun op =>
      if op.index = 2 then some ⟨100, receiverLock, some typeT⟩
      else if op.index ≤ 1 then some ⟨200, chequeLock, some typeT⟩
      else none
    get_cell_data := fun op =>
      if op.index = 2 then some (leBytes 16 5)
      else if op.index ≤ 1 then some (leBytes 16 1)
      else none }

/-- The transaction built by the claim builder on the small fixture. -/
def cwTx : Transaction :=
  { cell_deps := [d0]
    inputs := [⟨mkOutPoint 0, 0⟩, ⟨mkOutPoint 1, 0⟩, ⟨mkOutPoint 2, 0⟩]
    outputs := [⟨100, receiverLock, some typeT⟩, ⟨400, senderLock, none⟩]
    outputs_data := [leBytes 16 7, []] }

/-- Claim-path provider whose cheque cell at index 1 has *no* type script
(everything else valid). -/
def c2Provider : TxDepProvider :=
  { get_cell := fun op =>
      if op.index = 2 then some ⟨100, receiverLock, some typeT⟩
      else if op.index = 1 then some ⟨200, chequeLock, none⟩
      else none
    get_cell_data := fun op =>
      if op.index = 2 then some (leBytes 16 5)
      else if op.index = 1 then some (leBytes 16 1)
      else none }

/-- Claim builder over the type-script-less cheque cell. -/
def c2Builder : ChequeClaimBuilder :=
  ⟨[⟨mkOutPoint 1, 0⟩], ⟨mkOutPoint 2, 0⟩, senderLock⟩

/-- Claim-path provider with two cheque cells of amount `2 ^ 127` each: the
amount sum overflows `u128`. -/
def c3Provider : TxDepProvider :=
  { get_cell := fun op =>
      if op.index = 2 then some ⟨100, receiverLock, some typeT⟩
      else if op.index ≤ 1 then some ⟨200, chequeLock, some typeT⟩
      else none
    get_cell_data := fun op =>
      if op.index = 2 then some (leBytes 16 5)
      else if op.index ≤ 1 then some (leBytes 16 (2 ^ 127))
      else none }

/-- Withdraw-path provider with two small cheque cells: capacity 200 each,
amounts 40 and 60. -/
def wdProvider : TxDepProvider :=
  { get_cell := fun op =>
      if op.index ≤ 1 then some ⟨200, chequeLock, some typeT⟩ else none
    get_cell_data := fun op =>
      if op.index = 0 then some (leBytes 16 40)
      else if op.index = 1 then some (leBytes 16 60)
      else none }

/-- Withdraw builder over out-points 0 and 1. -/
def wdBuilder : ChequeWithdrawBuilder :=
  ⟨[mkOutPoint 0, mkOutPoint 1], senderLock⟩

/-- The transaction built by the withdraw builder on the small fixture with
resolver `res1`. -/
def wdTx : Transaction :=
  { cell_deps := [d1, d2]
    inputs := [⟨mkOutPoint 0, CHEQUE_CELL_SINCE⟩, ⟨mkOutPoint 1, CHEQUE_CELL_SINCE⟩]
    outputs := [⟨400, senderLock, some typeT⟩]
    outputs_data := [leBytes 16 100] }

/-- The transaction built by the capacity-transfer builder on `tfBuilder`
with resolver `res0`. -/
def tfTx : Transaction :=
  { cell_deps := [d0]
    inputs := []
    outputs := [⟨100, receiverLock, some typeT⟩, ⟨50, senderLock, none⟩]
    outputs_data := [[1, 2], []] }

/-- Withdraw-path provider with two cheque cells of capacity `2 ^ 63` each:
the capacity sum overflows `u64`. -/
def c5Provider : TxDepProvider :=
  { get_cell := fun op =>
      if op.index ≤ 1 then some ⟨2 ^ 63, chequeLock, some typeT⟩ else none
    get_cell_data := fun op =>
      if op.index ≤ 1 then some (leBytes 16 1) else none }

/-- Withdraw-path provider whose cheque cell data is 15 bytes long. -/
def c8Provider : TxDepProvider :=
  { get_cell := fun op =>
      if op.index = 0 then some ⟨200, chequeLock, some typeT⟩ else none
    get_cell_data := fun op =>
      if op.index = 0 then some (List.replicate 15 0) else none }

/-- Withdraw builder over out-point 0 only. -/
def c8Builder : ChequeWithdrawBuilder :=
  ⟨[mkOutPoint 0], senderLock⟩

/-- Capacity-transfer builder fixture: one output with a type script, one
without. -/
def tfBuilder : CapacityTransferBuilder :=
  ⟨[(⟨100, receiverLock, some typeT⟩, [1, 2]), (⟨50, senderLock, none⟩, [])]⟩

/-- Fixture script group acting on input index 0. -/
def g0 : ScriptGroup := ⟨senderLock, [0]⟩

/-- Fixture transaction view: one input, one empty witness. -/
def t7 : TxView := ⟨List.replicate 32 5, 1, [[]]⟩

/-- Fixture wallet: matches every id and signs everything with the constant
65-byte signature `[2, 2, …, 2]`. -/
def w65 : Wallet := ⟨fun _ => true, fun _ _ => some (List.replicate 65 2)⟩

/-- The transaction produced by the sighash signer on `t7`. -/
def t7Signed : TxView :=
  ⟨List.replicate 32 5, 1,
    [serializeWitnessArgs ⟨some (List.replicate 65 2), none, none⟩]⟩

/-- Fixture 1-of-1 multisig config (single 20-byte address). -/
def c6Config : MultisigConfig := ⟨[List.replicate 20 8], 1, 1⟩

/-- Transaction view whose witness 0 carries a `WitnessArgs` lock field of 25
bytes: one byte past the 24-byte config data, not a whole 65-byte slot, so
the source's slot scan slices out of range. -/
def c6BadTx : TxView :=
  ⟨List.replicate 32 5, 1, [serializeWitnessArgs ⟨some (List.replicate 25 1), none, none⟩]⟩

/-- Transaction view with an empty witness for the multisig witness fixture. -/
def c6GoodTx : TxView := ⟨List.replicate 32 5, 1, [[]]⟩

/-- The transaction produced by the 1-of-1 multisig signer on `c6GoodTx`:
witness 0 carries the config data followed by the placed signature. -/
def c6Out : TxView :=
  ⟨List.replicate 32 5, 1,
    [serializeWitnessArgs
      ⟨some (c6Config.to_witness_data ++ List.replicate 65 2), none, none⟩]⟩

/-! ## Theorems -/

/-- C2 (counter-evidence for the claim, which the code violates): a claim
build whose single cheque input cell has *no* type script — receiver valid,
amounts and locks valid — returns `Ok` instead of `InvalidParameter`, because
cheque.rs:92 reads the type script of the *receiver* cell instead of the
cheque input cell being validated, so the mismatch check compares the
receiver's type script with itself. -/
theorem c2_missing_type_script_not_rejected :
    (chequeClaimBuildBase hash0 c2Builder res0 c2Provider).map (fun _ => ()) = .ok () := by
  decide

/-- C3 (counter-evidence for the claim, which the code violates): a claim
build over two cheque cells of amount `2 ^ 127` each succeeds, and the
receiver output data is the little-endian encoding of the receiver amount 5
alone — the `u128` sum wrapped to 0 (cheque.rs:139 uses plain `+=`), instead
of the build failing with an error. -/
theorem c3_amount_sum_wraps_instead_of_failing :
    (chequeClaimBuildBase hash0 c1Builder res0 c3Provider).map
      (fun tx => tx.outputs_data.head?) = .ok (some (leBytes 16 5)) := by
  decide

/-- C8 (counter-evidence for the claim, which the code violates): a withdraw
build over a cheque cell with 15 bytes of data panics (the `copy_from_slice`
at cheque.rs:245 has no preceding length check) instead of returning
`InvalidParameter`. -/
theorem c8_withdraw_short_data_panics :
    chequeWithdrawBuildBase hash0 c8Builder res0 c8Provider = .error .panic := by
  decide

/-- C10 (counter-evidence for the claim, which the code violates):
`match_args` on a 19-byte args panics (signer.rs:360 takes `&args[0..20]`
before any length check) instead of returning `false`; on a 20-byte args it
behaves as claimed. -/
theorem c10_short_args_panics :
    acpMatchArgs w65 (List.replicate 19 0) = none ∧
    acpMatchArgs w65 (List.replicate 20 0) = some true := by
  constructor <;> decide

/-- C1 counterexample: a claim build over two cheque cells of capacity
`2 ^ 63` each succeeds, but the total capacity of the cells referenced by the
inputs does not equal the total capacity of the outputs — the `u64` capacity
sum wrapped to 0. -/
theorem c1_capacity_not_conserved_on_overflow :
    (chequeClaimBuildBase hash0 c1Builder res0 c1Provider).map
      (fun tx => decide (inputCapacitySum c1Provider tx.inputs = outputCapacitySum tx)) =
      .ok false := by
  decide

/-- C5 counterexample: a withdraw build over two cheque cells of capacity
`2 ^ 63` each succeeds, but the output's capacity (wrapped to 0) does not
equal the sum of the cheque cells' capacities. -/
theorem c5_capacity_sum_wraps_on_overflow :
    (chequeWithdrawBuildBase hash0 wdBuilder res0 c5Provider).map
      (fun tx => decide (outputCapacitySum tx =
        (wdBuilder.out_points.map (chequeCapacityAt c5Provider)).sum)) = .ok false := by
  decide

/-- C9 counterexample: a withdraw build in which the cheque lock script and
the type script resolve to the same cell-dep returns a cell-dep list with a
duplicate (`vec![lock_cell_dep, type_cell_dep]` at cheque.rs:294 is not
deduplicated). -/
theorem c9_withdraw_cell_deps_duplicate :
    (chequeWithdrawBuildBase hash0 wdBuilder res0 wdProvider).map
      (fun tx => decide tx.cell_deps.Nodup) = .ok false := by
  decide

/-- C6 counterexample: a multisig sign over a pre-existing witness whose lock
field is 25 bytes (one byte past the 24-byte config data, not a whole 65-byte
slot) panics — the slot scan at signer.rs:332 slices `[idx..idx+65]` out of
range — whereas the claimed behavior (scan whole 65-byte slots, fail with
`TooManySignatures` on exhaustion) would report `TooManySignatures`. -/
theorem c6_malformed_lock_field_panics :
    multisigSignTx hash0 w65 c6Config c6BadTx g0 = .error .panic ∧
    multisigSignSpec hash0 w65 c6Config c6BadTx g0 = .error .tooManySignatures := by
  constructor <;> decide

/-- The claim loop accumulates the (wrapping) amount and capacity sums of the
cheque input cells. -/
theorem claimLoop_ok_sums (resolver : ScriptId → Option CellDep) (provider : TxDepProvider)
    (rc : CellOutput) (rty : Script) (inputs : List CellInput) :
    ∀ (deps : List CellDep) (amt cap : Nat) (lastLock : Option Script)
      (deps' : List CellDep) (amt' cap' : Nat) (lastLock' : Option Script),
      claimLoop resolver provider rc rty inputs deps amt cap lastLock =
        .ok (deps', amt', cap', lastLock') →
      amt < 2 ^ 128 → cap < 2 ^ 64 →
      amt' = (amt + (inputs.map (fun i => chequeAmountAt provider i.previous_output)).sum)
          % 2 ^ 128 ∧
      cap' = (cap + (inputs.map (fun i => chequeCapacityAt provider i.previous_output)).sum)
          % 2 ^ 64 := by
  induction inputs with
  | nil =>
    intro deps amt cap lastLock deps' amt' cap' lastLock' h ha hc
    simp only [claimLoop, Except.ok.injEq, Prod.mk.injEq] at h
    obtain ⟨-, rfl, rfl, -⟩ := h
    simp only [List.map_nil, List.sum_nil, Nat.add_zero]
    exact ⟨(Nat.mod_eq_of_lt ha).symm, (Nat.mod_eq_of_lt hc).symm⟩
  | cons input rest ih =>
    intro deps amt cap lastLock deps' amt' cap' lastLock' h ha hc
    simp only [claimLoop] at h
    split at h
    next => exact Except.noConfusion h
    next input_cell hcell =>
    split at h
    next => exact Except.noConfusion h
    next input_data hdata =>
    split at h
    next => exact Except.noConfusion h
    next type_script hrt =>
    split at h
    next => exact Except.noConfusion h
    next h16 =>
    split at h
    next => exact Except.noConfusion h
    next hts =>
    split at h
    next => exact Except.noConfusion h
    next hmm =>
    split at h
    next => exact Except.noConfusion h
    next lock_dep hres =>
    obtain ⟨ha', hc'⟩ := ih _ _ _ _ _ _ _ _ h
      (Nat.mod_lt _ (by norm_num)) (Nat.mod_lt _ (by norm_num))
    have hA : chequeAmountAt provider input.previous_output = fromLe input_data := by
      simp [chequeAmountAt, hdata]
    have hC : chequeCapacityAt provider input.previous_output = input_cell.capacity := by
      simp [chequeCapacityAt, hcell]
    refine ⟨?_, ?_⟩
    · rw [ha', Nat.mod_add_mod, List.map_cons, List.sum_cons, ← Nat.add_assoc, hA]
    · rw [hc', Nat.mod_add_mod, List.map_cons, List.sum_cons, ← Nat.add_assoc, hC]

/-- Set insertion only grows the dedup set. -/
theorem hsInsert_subset (s : List CellDep) (d : CellDep) : s ⊆ hsInsert s d := by
  unfold hsInsert
  split
  · exact fun x hx => hx
  · exact List.subset_append_left s [d]

/-- Set insertion preserves freedom from duplicates. -/
theorem hsInsert_nodup (s : List CellDep) (d : CellDep) (h : s.Nodup) :
    (hsInsert s d).Nodup := by
  unfold hsInsert
  split
  · exact h
  · next hmem => simp [List.nodup_append, h, hmem]

/-- The claim loop only grows the dedup cell-dep set and preserves its
freedom from duplicates. -/
theorem claimLoop_ok_deps (resolver : ScriptId → Option CellDep) (provider : TxDepProvider)
    (rc : CellOutput) (rty : Script) (inputs : List CellInput) :
    ∀ (deps : List CellDep) (amt cap : Nat) (lastLock : Option Script)
      (deps' : List CellDep) (amt' cap' : Nat) (lastLock' : Option Script),
      claimLoop resolver provider rc rty inputs deps amt cap lastLock =
        .ok (deps', amt', cap', lastLock') →
      deps ⊆ deps' ∧ (deps.Nodup → deps'.Nodup) := by
  induction inputs with
  | nil =>
    intro deps amt cap lastLock deps' amt' cap' lastLock' h
    simp only [claimLoop, Except.ok.injEq, Prod.mk.injEq] at h
    obtain ⟨rfl, -, -, -⟩ := h
    exact ⟨fun x hx => hx, id⟩
  | cons input rest ih =>
    intro deps amt cap lastLock deps' amt' cap' lastLock' h
    simp only [claimLoop] at h
    split at h
    next => exact Except.noConfusion h
    next input_cell hcell =>
    split at h
    next => exact Except.noConfusion h
    next input_data hdata =>
    split at h
    next => exact Except.noConfusion h
    next type_script hrt =>
    split at h
    next => exact Except.noConfusion h
    next h16 =>
    split at h
    next => exact Except.noConfusion h
    next hts =>
    split at h
    next => exact Except.noConfusion h
    next hmm =>
    split at h
    next => exact Except.noConfusion h
    next lock_dep hres =>
    obtain ⟨hsub, hnd⟩ := ih _ _ _ _ _ _ _ _ h
    exact ⟨fun x hx => hsub (hsInsert_subset _ _ hx),
      fun hn => hnd (hsInsert_nodup _ _ hn)⟩

/-- C1 (amended): for every claim build that succeeds, *provided the amount
and capacity sums do not overflow their integer widths* (cheque.rs:139-140
uses wrapping arithmetic, see the counterexample), the transaction's inputs
are the cheque inputs in caller order followed by the receiver input; the
total capacity of the cells referenced by the inputs equals the total
capacity of the outputs; output 0 is a copy of the receiver input cell whose
data is the little-endian u128 of receiver amount plus the cheque amounts;
output 1 has the sender lock, no type script, capacity the sum of the cheque
capacities and empty data. -/
theorem c1_claim_build_correct
    (blake2b : List Nat → List Nat) (b : ChequeClaimBuilder)
    (resolver : ScriptId → Option CellDep) (provider : TxDepProvider) (tx : Transaction)
    (hok : chequeClaimBuildBase blake2b b resolver provider = .ok tx)
    (hamt : chequeAmountAt provider b.receiver_input.previous_output +
      (b.inputs.map (fun i => chequeAmountAt provider i.previous_output)).sum < 2 ^ 128)
    (hcap : (b.inputs.map (fun i => chequeCapacityAt provider i.previous_output)).sum < 2 ^ 64) :
    tx.inputs = b.inputs ++ [b.receiver_input] ∧
    inputCapacitySum provider tx.inputs = outputCapacitySum tx ∧
    (∃ rc, provider.get_cell b.receiver_input.previous_output = some rc ∧
      tx.outputs = [rc,
        { capacity := (b.inputs.map (fun i => chequeCapacityAt provider i.previous_output)).sum,
          lock := b.sender_lock_script, type_ := none }]) ∧
    tx.outputs_data = [leBytes 16 (chequeAmountAt provider b.receiver_input.previous_output +
      (b.inputs.map (fun i => chequeAmountAt provider i.previous_output)).sum), []] := by
  simp only [chequeClaimBuildBase] at hok
  split at hok
  next => exact Except.noConfusion hok
  next hne =>
  split at hok
  next => exact Except.noConfusion hok
  next receiver_cell hrc =>
  split at hok
  next => exact Except.noConfusion hok
  next receiver_data hrd =>
  split at hok
  next => exact Except.noConfusion hok
  next receiver_type hrt =>
  split at hok
  next => exact Except.noConfusion hok
  next h16 =>
  split at hok
  next => exact Except.noConfusion hok
  next type_dep htd =>
  split at hok
  next => exact Except.noConfusion hok
  next lock_dep hld =>
  split at hok
  next e hloop => exact Except.noConfusion hok
  next deps cheque_amt cheque_cap lastLock hloop =>
  split at hok
  next => exact Except.noConfusion hok
  next cheque_lock hlast =>
  split at hok
  next => exact Except.noConfusion hok
  next hargs =>
  split at hok
  next => exact Except.noConfusion hok
  next hhash =>
  simp only [Except.ok.injEq] at hok
  subst hok
  obtain ⟨hamt', hcap'⟩ := claimLoop_ok_sums resolver provider receiver_cell receiver_type
    b.inputs _ _ _ _ _ _ _ _ hloop (by norm_num) (by norm_num)
  rw [Nat.zero_add] at hamt' hcap'
  have hcapv : cheque_cap =
      (b.inputs.map (fun i => chequeCapacityAt provider i.previous_output)).sum := by
    rw [hcap', Nat.mod_eq_of_lt hcap]
  have hamtv : cheque_amt =
      (b.inputs.map (fun i => chequeAmountAt provider i.previous_output)).sum := by
    rw [hamt', Nat.mod_eq_of_lt (by omega)]
  have hrecvA : chequeAmountAt provider b.receiver_input.previous_output = fromLe receiver_data := by
    simp [chequeAmountAt, hrd]
  refine ⟨rfl, ?_, ⟨receiver_cell, hrc, by rw [hcapv]⟩, ?_⟩
  · simp only [inputCapacitySum, outputCapacitySum, List.map_append, List.sum_append,
      List.map_cons, List.sum_cons, List.map_nil, List.sum_nil]
    have : chequeCapacityAt provider b.receiver_input.previous_output = receiver_cell.capacity := by
      simp [chequeCapacityAt, hrc]
    rw [this, hcapv]
    omega
  · rw [hamtv, ← hrecvA, Nat.mod_eq_of_lt hamt]


/-- The withdraw loop builds one `CellInput` with `CHEQUE_CELL_SINCE` per
out-point, in order, and accumulates the wrapping amount and capacity sums. -/
theorem withdrawLoop_ok_sums (provider : TxDepProvider) (ops : List OutPoint) :
    ∀ (inputs : List CellInput) (lastLock lastType : Option Script) (amt cap : Nat)
      (inputs' : List CellInput) (lastLock' lastType' : Option Script) (amt' cap' : Nat),
      withdrawLoop provider ops inputs lastLock lastType amt cap =
        .ok (inputs', lastLock', lastType', amt', cap') →
      amt < 2 ^ 128 → cap < 2 ^ 64 →
      inputs' = inputs ++ ops.map (fun op => ⟨op, CHEQUE_CELL_SINCE⟩) ∧
      amt' = (amt + (ops.map (chequeAmountAt provider)).sum) % 2 ^ 128 ∧
      cap' = (cap + (ops.map (chequeCapacityAt provider)).sum) % 2 ^ 64 := by
  induction ops with
  | nil =>
    intro inputs lastLock lastType amt cap inputs' lastLock' lastType' amt' cap' h ha hc
    simp only [withdrawLoop, Except.ok.injEq, Prod.mk.injEq] at h
    obtain ⟨rfl, -, -, rfl, rfl⟩ := h
    refine ⟨by simp, ?_, ?_⟩
    · simp only [List.map_nil, List.sum_nil, Nat.add_zero]
      exact (Nat.mod_eq_of_lt ha).symm
    · simp only [List.map_nil, List.sum_nil, Nat.add_zero]
      exact (Nat.mod_eq_of_lt hc).symm
  | cons op rest ih =>
    intro inputs lastLock lastType amt cap inputs' lastLock' lastType' amt' cap' h ha hc
    simp only [withdrawLoop] at h
    split at h
    next => exact Except.noConfusion h
    next cell hcell =>
    split at h
    next => exact Except.noConfusion h
    next data hdata =>
    split at h
    next => exact Except.noConfusion h
    next type_script hts =>
    split at h
    next => exact Except.noConfusion h
    next hml =>
    split at h
    next => exact Except.noConfusion h
    next hmt =>
    split at h
    next => exact Except.noConfusion h
    next h16 =>
    obtain ⟨hi, ha', hc'⟩ := ih _ _ _ _ _ _ _ _ _ _ h
      (Nat.mod_lt _ (by norm_num)) (Nat.mod_lt _ (by norm_num))
    have hA : chequeAmountAt provider op = fromLe data := by simp [chequeAmountAt, hdata]
    have hC : chequeCapacityAt provider op = cell.capacity := by simp [chequeCapacityAt, hcell]
    refine ⟨by rw [hi]; simp, ?_, ?_⟩
    · rw [ha', Nat.mod_add_mod, List.map_cons, List.sum_cons, ← Nat.add_assoc, hA]
    · rw [hc', Nat.mod_add_mod, List.map_cons, List.sum_cons, ← Nat.add_assoc, hC]

/-- Once the withdraw loop has recorded a type script, it never changes. -/
theorem withdrawLoop_ok_last (provider : TxDepProvider) (ops : List OutPoint) :
    ∀ (inputs : List CellInput) (lastLock lastType : Option Script) (amt cap : Nat)
      (inputs' : List CellInput) (lastLock' lastType' : Option Script) (amt' cap' : Nat),
      withdrawLoop provider ops inputs lastLock lastType amt cap =
        .ok (inputs', lastLock', lastType', amt', cap') →
      (∀ T, lastType = some T → lastType' = some T) := by
  induction ops with
  | nil =>
    intro inputs lastLock lastType amt cap inputs' lastLock' lastType' amt' cap' h T hT
    simp only [withdrawLoop, Except.ok.injEq, Prod.mk.injEq] at h
    obtain ⟨-, -, rfl, -, -⟩ := h
    exact hT
  | cons op rest ih =>
    intro inputs lastLock lastType amt cap inputs' lastLock' lastType' amt' cap' h T hT
    simp only [withdrawLoop] at h
    split at h
    next => exact Except.noConfusion h
    next cell hcell =>
    split at h
    next => exact Except.noConfusion h
    next data hdata =>
    split at h
    next => exact Except.noConfusion h
    next type_script hts =>
    split at h
    next => exact Except.noConfusion h
    next hml =>
    split at h
    next => exact Except.noConfusion h
    next hmt =>
    split at h
    next => exact Except.noConfusion h
    next h16 =>
    have hTeq : type_script = T := by
      subst hT
      have := hmt
      simp only [scriptMismatch, decide_eq_true_eq, Decidable.not_not] at this
      exact this.symm
    exact ih _ _ _ _ _ _ _ _ _ _ h T (by rw [hTeq])

/-- Every out-point the withdraw loop accepts has a cell whose type script is
the finally recorded one. -/
theorem withdrawLoop_ok_cells (provider : TxDepProvider) (ops : List OutPoint) :
    ∀ (inputs : List CellInput) (lastLock lastType : Option Script) (amt cap : Nat)
      (inputs' : List CellInput) (lastLock' lastType' : Option Script) (amt' cap' : Nat),
      withdrawLoop provider ops inputs lastLock lastType amt cap =
        .ok (inputs', lastLock', lastType', amt', cap') →
      ∀ op ∈ ops, ∃ c, provider.get_cell op = some c ∧ c.type_ = lastType' := by
  induction ops with
  | nil =>
    intro inputs lastLock lastType amt cap inputs' lastLock' lastType' amt' cap' h op hop
    exact absurd hop (List.not_mem_nil op)
  | cons op0 rest ih =>
    intro inputs lastLock lastType amt cap inputs' lastLock' lastType' amt' cap' h op hop
    simp only [withdrawLoop] at h
    split at h
    next => exact Except.noConfusion h
    next cell hcell =>
    split at h
    next => exact Except.noConfusion h
    next data hdata =>
    split at h
    next => exact Except.noConfusion h
    next type_script hts =>
    split at h
    next => exact Except.noConfusion h
    next hml =>
    split at h
    next => exact Except.noConfusion h
    next hmt =>
    split at h
    next => exact Except.noConfusion h
    next h16 =>
    have hlast : lastType' = some type_script :=
      withdrawLoop_ok_last provider rest _ _ _ _ _ _ _ _ _ _ h type_script rfl
    rcases List.mem_cons.mp hop with rfl | hmem
    · exact ⟨cell, hcell, by rw [hts, hlast]⟩
    · exact ih _ _ _ _ _ _ _ _ _ _ h op hmem

/-- C5 (amended): for every withdraw build that succeeds, *provided the
amount and capacity sums do not overflow* (cheque.rs:251-252 uses wrapping
arithmetic, see the counterexample), every input is the corresponding
out-point with `since = CHEQUE_CELL_SINCE`, and there is exactly one output
with the sender lock script, the shared cheque type script, capacity the sum
of the cheque capacities, and the little-endian u128 of the amount sum as
data. -/
theorem c5_withdraw_build_correct
    (blake2b : List Nat → List Nat) (b : ChequeWithdrawBuilder)
    (resolver : ScriptId → Option CellDep) (provider : TxDepProvider) (tx : Transaction)
    (hok : chequeWithdrawBuildBase blake2b b resolver provider = .ok tx)
    (hamt : (b.out_points.map (chequeAmountAt provider)).sum < 2 ^ 128)
    (hcap : (b.out_points.map (chequeCapacityAt provider)).sum < 2 ^ 64) :
    tx.inputs = b.out_points.map (fun op => ⟨op, CHEQUE_CELL_SINCE⟩) ∧
    (∃ T, (∀ op ∈ b.out_points, ∃ c, provider.get_cell op = some c ∧ c.type_ = some T) ∧
      tx.outputs = [⟨(b.out_points.map (chequeCapacityAt provider)).sum,
        b.sender_lock_script, some T⟩]) ∧
    tx.outputs_data = [leBytes 16 ((b.out_points.map (chequeAmountAt provider)).sum)] := by
  simp only [chequeWithdrawBuildBase] at hok
  split at hok
  next => exact Except.noConfusion hok
  next hne =>
  split at hok
  next e hloop => exact Except.noConfusion hok
  next inputs lastLock lastType cheque_amt cheque_cap hloop =>
  split at hok
  next => exact Except.noConfusion hok
  next => exact Except.noConfusion hok
  next cheque_lock type_script =>
  split at hok
  next => exact Except.noConfusion hok
  next lock_dep hld =>
  split at hok
  next => exact Except.noConfusion hok
  next type_dep htd =>
  split at hok
  next => exact Except.noConfusion hok
  next hargs =>
  split at hok
  next => exact Except.noConfusion hok
  next hhash =>
  simp only [Except.ok.injEq] at hok
  subst hok
  obtain ⟨hi, ha', hc'⟩ := withdrawLoop_ok_sums provider b.out_points
    _ _ _ _ _ _ _ _ _ _ hloop (by norm_num) (by norm_num)
  rw [Nat.zero_add] at ha' hc'
  have hcapv : cheque_cap = (b.out_points.map (chequeCapacityAt provider)).sum := by
    rw [hc', Nat.mod_eq_of_lt hcap]
  have hamtv : cheque_amt = (b.out_points.map (chequeAmountAt provider)).sum := by
    rw [ha', Nat.mod_eq_of_lt hamt]
  refine ⟨by rw [hi]; simp, ⟨type_script, ?_, by rw [hcapv]⟩, by rw [hamtv]⟩
  intro op hop
  obtain ⟨c, hc1, hc2⟩ := withdrawLoop_ok_cells provider b.out_points
    _ _ _ _ _ _ _ _ _ _ hloop op hop
  exact ⟨c, hc1, by rw [hc2]⟩

/-- The capacity-transfer loop preserves freedom from duplicates of the
cell-dep set. -/
theorem transferLoop_ok_nodup (resolver : ScriptId → Option CellDep)
    (outputs : List (CellOutput × List Nat)) :
    ∀ (deps : List CellDep) (outs : List CellOutput) (datas : List (List Nat))
      (deps' : List CellDep) (outs' : List CellOutput) (datas' : List (List Nat)),
      transferLoop resolver outputs deps outs datas = .ok (deps', outs', datas') →
      deps.Nodup → deps'.Nodup := by
  induction outputs with
  | nil =>
    intro deps outs datas deps' outs' datas' h hn
    simp only [transferLoop, Except.ok.injEq, Prod.mk.injEq] at h
    obtain ⟨rfl, -, -⟩ := h
    exact hn
  | cons od rest ih =>
    intro deps outs datas deps' outs' datas' h hn
    obtain ⟨o, d⟩ := od
    simp only [transferLoop] at h
    split at h
    next => exact ih _ _ _ _ _ _ h hn
    next ts hts =>
    split at h
    next => exact Except.noConfusion h
    next cd hcd => exact ih _ _ _ _ _ _ h (hsInsert_nodup _ _ hn)

/-- C9 (amended): the claim and capacity-transfer builders produce cell-dep
lists without duplicates (`HashSet` semantics); the withdraw builder instead
returns literally `[lock_cell_dep, type_cell_dep]` (cheque.rs:294), which is
duplicate-free only when the two resolved deps differ — see the
counterexample for the coinciding case. -/
theorem c9_cell_deps_dedup (blake2b : List Nat → List Nat)
    (resolver : ScriptId → Option CellDep) (provider : TxDepProvider) :
    (∀ (b : ChequeClaimBuilder) (tx : Transaction),
      chequeClaimBuildBase blake2b b resolver provider = .ok tx → tx.cell_deps.Nodup) ∧
    (∀ (b : CapacityTransferBuilder) (tx : Transaction),
      capacityTransferBuildBase b resolver = .ok tx → tx.cell_deps.Nodup) ∧
    (∀ (b : ChequeWithdrawBuilder) (tx : Transaction),
      chequeWithdrawBuildBase blake2b b resolver provider = .ok tx →
      ∃ ld td, tx.cell_deps = [ld, td] ∧ (ld ≠ td → tx.cell_deps.Nodup)) := by
  refine ⟨?_, ?_, ?_⟩
  · intro b tx hok
    simp only [chequeClaimBuildBase] at hok
    split at hok
    next => exact Except.noConfusion hok
    next hne =>
    split at hok
    next => exact Except.noConfusion hok
    next receiver_cell hrc =>
    split at hok
    next => exact Except.noConfusion hok
    next receiver_data hrd =>
    split at hok
    next => exact Except.noConfusion hok
    next receiver_type hrt =>
    split at hok
    next => exact Except.noConfusion hok
    next h16 =>
    split at hok
    next => exact Except.noConfusion hok
    next type_dep htd =>
    split at hok
    next => exact Except.noConfusion hok
    next lock_dep hld =>
    split at hok
    next e hloop => exact Except.noConfusion hok
    next deps cheque_amt cheque_cap lastLock hloop =>
    split at hok
    next => exact Except.noConfusion hok
    next cheque_lock hlast =>
    split at hok
    next => exact Except.noConfusion hok
    next hargs =>
    split at hok
    next => exact Except.noConfusion hok
    next hhash =>
    simp only [Except.ok.injEq] at hok
    subst hok
    exact (claimLoop_ok_deps resolver provider receiver_cell receiver_type
      b.inputs _ _ _ _ _ _ _ _ hloop).2
      (hsInsert_nodup _ _ (hsInsert_nodup _ _ List.nodup_nil))
  · intro b tx hok
    simp only [capacityTransferBuildBase] at hok
    split at hok
    next e hloop => exact Except.noConfusion hok
    next deps outs datas hloop =>
    simp only [Except.ok.injEq] at hok
    subst hok
    exact transferLoop_ok_nodup resolver b.outputs _ _ _ _ _ _ hloop List.nodup_nil
  · intro b tx hok
    simp only [chequeWithdrawBuildBase] at hok
    split at hok
    next => exact Except.noConfusion hok
    next hne =>
    split at hok
    next e hloop => exact Except.noConfusion hok
    next inputs lastLock lastType cheque_amt cheque_cap hloop =>
    split at hok
    next => exact Except.noConfusion hok
    next => exact Except.noConfusion hok
    next cheque_lock type_script =>
    split at hok
    next => exact Except.noConfusion hok
    next lock_dep hld =>
    split at hok
    next => exact Except.noConfusion hok
    next type_dep htd =>
    split at hok
    next => exact Except.noConfusion hok
    next hargs =>
    split at hok
    next => exact Except.noConfusion hok
    next hhash =>
    simp only [Except.ok.injEq] at hok
    subst hok
    exact ⟨lock_dep, type_dep, rfl, fun hne => by simp [hne]⟩

/-- C1 witness: the amended claim instantiated on the small two-cheque
fixture. -/
theorem c1_claim_build_correct_witness :
    cwTx.inputs = c1Builder.inputs ++ [c1Builder.receiver_input] ∧
    inputCapacitySum cwProvider cwTx.inputs = outputCapacitySum cwTx ∧
    (∃ rc, cwProvider.get_cell c1Builder.receiver_input.previous_output = some rc ∧
      cwTx.outputs = [rc,
        { capacity :=
            (c1Builder.inputs.map (fun i => chequeCapacityAt cwProvider i.previous_output)).sum,
          lock := c1Builder.sender_lock_script, type_ := none }]) ∧
    cwTx.outputs_data =
      [leBytes 16 (chequeAmountAt cwProvider c1Builder.receiver_input.previous_output +
        (c1Builder.inputs.map (fun i => chequeAmountAt cwProvider i.previous_output)).sum), []] :=
  c1_claim_build_correct hash0 c1Builder res0 cwProvider cwTx
    (by decide) (by decide) (by decide)

/-- C5 witness: the amended claim instantiated on the small two-cheque
withdraw fixture. -/
theorem c5_withdraw_build_correct_witness :
    wdTx.inputs = wdBuilder.out_points.map (fun op => ⟨op, CHEQUE_CELL_SINCE⟩) ∧
    (∃ T, (∀ op ∈ wdBuilder.out_points, ∃ c, wdProvider.get_cell op = some c ∧
        c.type_ = some T) ∧
      wdTx.outputs = [⟨(wdBuilder.out_points.map (chequeCapacityAt wdProvider)).sum,
        wdBuilder.sender_lock_script, some T⟩]) ∧
    wdTx.outputs_data = [leBytes 16 ((wdBuilder.out_points.map (chequeAmountAt wdProvider)).sum)] :=
  c5_withdraw_build_correct hash0 wdBuilder res1 wdProvider wdTx
    (by decide) (by decide) (by decide)

/-- C9 witness: the amended claim applied to the three concrete fixture
builds. -/
theorem c9_cell_deps_dedup_witness :
    cwTx.cell_deps.Nodup ∧ tfTx.cell_deps.Nodup ∧
    (∃ ld td, wdTx.cell_deps = [ld, td] ∧ (ld ≠ td → wdTx.cell_deps.Nodup)) :=
  ⟨(c9_cell_deps_dedup hash0 res0 cwProvider).1 c1Builder cwTx (by decide),
   (c9_cell_deps_dedup hash0 res0 cwProvider).2.1 tfBuilder tfTx (by decide),
   (c9_cell_deps_dedup hash0 res1 wdProvider).2.2 wdBuilder wdTx (by decide)⟩

/-- The source's `filter_map`/`map` encoding of the remaining group witnesses
equals the spec's fold over the indices. -/
theorem foldr_filterMap_enc (ws : List (List Nat)) (rest : List Nat) :
    rest.foldr (fun idx acc =>
        match ws.get? idx with
        | some w => witnessEnc w ++ acc
        | none => acc) [] =
      ((rest.filterMap (fun idx => ws.get? idx)).map
        (fun w => u64le w.length ++ w)).flatten := by
  induction rest with
  | nil => simp
  | cons idx rest ih =>
    simp only [List.get?_eq_getElem?] at ih ⊢
    cases hw : ws[idx]? with
    | none => simp [List.foldr_cons, List.filterMap_cons, hw, ih]
    | some w =>
      simp only [List.foldr_cons, List.filterMap_cons, hw, List.map_cons, List.flatten_cons, ih]
      simp [witnessEnc]

/-- The source's slice-and-map encoding of the outer witnesses equals the
spec's fold over the position range. -/
theorem foldr_range_enc (ws : List (List Nat)) :
    ∀ (k n : Nat), k = ws.length - n →
    (List.range' n k).foldr (fun idx acc =>
        match ws.get? idx with
        | some w => witnessEnc w ++ acc
        | none => acc) [] =
      ((ws.drop n).map (fun w => u64le w.length ++ w)).flatten := by
  intro k
  induction k with
  | zero =>
    intro n hk
    have h : ws.length ≤ n := by omega
    simp [List.drop_eq_nil_of_le h]
  | succ k ih =>
    intro n hk
    have hn : n < ws.length := by omega
    have hget : ws[n]? = some ws[n] := List.getElem?_eq_getElem hn
    rw [List.range'_succ]
    simp only [List.get?_eq_getElem?, List.foldr_cons, hget]
    have ih2 := ih (n + 1) (by omega)
    simp only [List.get?_eq_getElem?] at ih2
    rw [ih2, List.drop_eq_getElem_cons hn]
    simp only [List.map_cons, List.flatten_cons, witnessEnc, List.append_assoc]

/-- C4: `generate_message` computes exactly the digest the specification
describes — `WitnessNotEnough` iff the witness count is at most the first
group index, default/`InvalidWitnessArgs` parsing of witness `i`, lock field
replaced by the zero-lock, and blake2b-256 over the transaction hash, the
length-prefixed modified witness, the length-prefixed remaining group
witnesses (missing indices skipped) and the length-prefixed outer
witnesses. -/
theorem c4_generate_message_matches_spec (blake2b : List Nat → List Nat) (tx : TxView) (g : ScriptGroup)
    (zero_lock : List Nat) (i : Nat) (rest : List Nat)
    (hg : g.input_indices = i :: rest) :
    generateMessage blake2b tx g zero_lock = generateMessageSpec blake2b tx i rest zero_lock := by
  simp only [generateMessage, generateMessageSpec, hg]
  by_cases hlen : tx.witnesses.length ≤ i
  · simp [hlen]
  · simp only [if_neg hlen]
    cases hw : parseOrDefaultWitnessArgs ((tx.witnesses.get? i).getD []) with
    | none => rfl
    | some w0 =>
      simp only []
      congr 1
      rw [foldr_filterMap_enc tx.witnesses rest,
        foldr_range_enc tx.witnesses (tx.witnesses.length - tx.inputs_len) tx.inputs_len rfl]
      by_cases houter : tx.inputs_len < tx.witnesses.length
      · simp [houter, witnessEnc, List.append_assoc]
      · have hdrop : tx.witnesses.drop tx.inputs_len = [] :=
          List.drop_eq_nil_of_le (by omega)
        simp [houter, hdrop, witnessEnc, List.append_assoc]

/-- C4 witness: the refinement instantiated on the one-input fixture. -/
theorem c4_generate_message_matches_spec_witness :
    generateMessage hash0 t7 g0 (List.replicate 65 0) =
      generateMessageSpec hash0 t7 0 [] (List.replicate 65 0) :=
  c4_generate_message_matches_spec hash0 t7 g0 (List.replicate 65 0) 0 [] rfl

/-- `leBytes` always emits exactly `w` bytes. -/
theorem leBytes_length (w n : Nat) : (leBytes w n).length = w := by
  induction w generalizing n with
  | zero => rfl
  | succ w ih => simp [leBytes, ih]

/-- Little-endian encode/decode roundtrip below the width bound. -/
theorem fromLe_leBytes (w n : Nat) (h : n < 2 ^ (8 * w)) : fromLe (leBytes w n) = n := by
  induction w generalizing n with
  | zero =>
    have : n = 0 := by simpa using h
    simp [this, leBytes, fromLe]
  | succ w ih =>
    have hdiv : n / 256 < 2 ^ (8 * w) := by
      apply Nat.div_lt_of_lt_mul
      calc n < 2 ^ (8 * (w + 1)) := h
        _ = 256 * 2 ^ (8 * w) := by
            rw [show 8 * (w + 1) = 8 * w + 8 by ring, pow_add]
            ring
    simp only [leBytes, fromLe, ih _ hdiv]
    omega

/-- Taking 4 bytes off a concatenation headed by a 4-byte block. -/
theorem take_four (x r : List Nat) (hx : x.length = 4) : (x ++ r).take 4 = x := by
  rw [← hx, List.take_left]

/-- Dropping 4 bytes off a concatenation headed by a 4-byte block. -/
theorem drop_four (x r : List Nat) (hx : x.length = 4) : (x ++ r).drop 4 = r := by
  rw [← hx, List.drop_left]

/-- Length of a serialized `BytesOpt`. -/
theorem serializeBytesOpt_length (o : Option (List Nat)) :
    (serializeBytesOpt o).length = match o with | none => 0 | some bs => 4 + bs.length := by
  cases o <;> simp [serializeBytesOpt, u32le, leBytes_length]

/-- `BytesOpt` serialize/parse roundtrip (payload below the u32 bound). -/
theorem parseBytesOpt_serializeBytesOpt (o : Option (List Nat))
    (h : ∀ bs, o = some bs → bs.length < 2 ^ 32) :
    parseBytesOpt (serializeBytesOpt o) = some o := by
  cases o with
  | none => rfl
  | some bs =>
    have hlen : (u32le bs.length).length = 4 := by simp [u32le, leBytes_length]
    have hne : ¬(u32le bs.length ++ bs = []) := by
      intro he
      have := congrArg List.length he
      simp [hlen] at this
    have hfrom : fromLe ((u32le bs.length ++ bs).take 4) = bs.length := by
      rw [take_four _ _ hlen]
      exact fromLe_leBytes 4 bs.length (h bs rfl)
    simp only [serializeBytesOpt, parseBytesOpt, if_neg hne]
    rw [if_pos]
    · rw [drop_four _ _ hlen]
    · refine ⟨by simp [hlen], ?_⟩
      rw [hfrom]
      simp [hlen]

/-- A molecule `Uint32` is 4 bytes. -/
theorem u32le_length (m : Nat) : (u32le m).length = 4 := by
  simp [u32le, leBytes_length]

/-- Length of a serialized `WitnessArgs` table. -/
theorem serializeWitnessArgs_length (w : WitnessArgs) :
    (serializeWitnessArgs w).length = 16 + (serializeBytesOpt w.lock).length +
      (serializeBytesOpt w.input_type).length + (serializeBytesOpt w.output_type).length := by
  simp [serializeWitnessArgs, u32le_length]
  ring

/-- `WitnessArgs` serialize/parse roundtrip (total size below the u32
bound): `from_slice` recovers exactly the table that was serialized. -/
theorem parseWitnessArgs_serializeWitnessArgs (w : WitnessArgs)
    (h : (serializeWitnessArgs w).length < 2 ^ 32) :
    parseWitnessArgs (serializeWitnessArgs w) = some w := by
  obtain ⟨l, it, ot⟩ := w
  have hlen := serializeWitnessArgs_length ⟨l, it, ot⟩
  simp only at hlen
  set f1 := serializeBytesOpt l with hf1
  set f2 := serializeBytesOpt it with hf2
  set f3 := serializeBytesOpt ot with hf3
  set S := serializeWitnessArgs ⟨l, it, ot⟩ with hS
  have hSeq : S = u32le (16 + f1.length + f2.length + f3.length) ++ (u32le 16 ++
      (u32le (16 + f1.length) ++ (u32le (16 + f1.length + f2.length) ++
      (f1 ++ (f2 ++ f3))))) := by
    rw [hS]
    simp only [serializeWitnessArgs, ← hf1, ← hf2, ← hf3]
    simp [List.append_assoc]
  have hTlt : 16 + f1.length + f2.length + f3.length < 2 ^ 32 := by
    rw [← hlen]; exact h
  have htake0 : S.take 4 = u32le (16 + f1.length + f2.length + f3.length) := by
    rw [hSeq]; exact take_four _ _ (u32le_length _)
  have hdrop4 : S.drop 4 = u32le 16 ++ (u32le (16 + f1.length) ++
      (u32le (16 + f1.length + f2.length) ++ (f1 ++ (f2 ++ f3)))) := by
    rw [hSeq]; exact drop_four _ _ (u32le_length _)
  have hdrop8 : S.drop 8 = u32le (16 + f1.length) ++
      (u32le (16 + f1.length + f2.length) ++ (f1 ++ (f2 ++ f3))) := by
    rw [show (8 : Nat) = 4 + 4 from rfl, ← List.drop_drop, hdrop4]
    exact drop_four _ _ (u32le_length _)
  have hdrop12 : S.drop 12 = u32le (16 + f1.length + f2.length) ++ (f1 ++ (f2 ++ f3)) := by
    rw [show (12 : Nat) = 8 + 4 from rfl, ← List.drop_drop, hdrop8]
    exact drop_four _ _ (u32le_length _)
  have hdrop16 : S.drop 16 = f1 ++ (f2 ++ f3) := by
    rw [show (16 : Nat) = 12 + 4 from rfl, ← List.drop_drop, hdrop12]
    exact drop_four _ _ (u32le_length _)
  have hfromT : fromLe (S.take 4) = 16 + f1.length + f2.length + f3.length := by
    rw [htake0]; exact fromLe_leBytes 4 _ hTlt
  have hfrom16 : fromLe ((S.drop 4).take 4) = 16 := by
    rw [hdrop4, take_four _ _ (u32le_length _)]
    exact fromLe_leBytes 4 16 (by norm_num)
  have hfromO2 : fromLe ((S.drop 8).take 4) = 16 + f1.length := by
    rw [hdrop8, take_four _ _ (u32le_length _)]
    exact fromLe_leBytes 4 _ (by omega)
  have hfromO3 : fromLe ((S.drop 12).take 4) = 16 + f1.length + f2.length := by
    rw [hdrop12, take_four _ _ (u32le_length _)]
    exact fromLe_leBytes 4 _ (by omega)
  have hslice1 : (S.drop 16).take (16 + f1.length - 16) = f1 := by
    rw [hdrop16, Nat.add_sub_cancel_left, List.take_left]
  have hdropO2 : S.drop (16 + f1.length) = f2 ++ f3 := by
    rw [← List.drop_drop, hdrop16, List.drop_left]
  have hslice2 : (S.drop (16 + f1.length)).take (16 + f1.length + f2.length - (16 + f1.length)) =
      f2 := by
    rw [hdropO2, Nat.add_sub_cancel_left, List.take_left]
  have hdropO3 : S.drop (16 + f1.length + f2.length) = f3 := by
    rw [← List.drop_drop, hdropO2, List.drop_left]
  have hp1 : parseBytesOpt f1 = some l := by
    rw [hf1]
    apply parseBytesOpt_serializeBytesOpt
    intro bs hbs
    have hfl : f1.length = 4 + bs.length := by
      rw [hf1, hbs]
      simp [serializeBytesOpt, u32le_length]
    omega
  have hp2 : parseBytesOpt f2 = some it := by
    rw [hf2]
    apply parseBytesOpt_serializeBytesOpt
    intro bs hbs
    have hfl : f2.length = 4 + bs.length := by
      rw [hf2, hbs]
      simp [serializeBytesOpt, u32le_length]
    omega
  have hp3 : parseBytesOpt f3 = some ot := by
    rw [hf3]
    apply parseBytesOpt_serializeBytesOpt
    intro bs hbs
    have hfl : f3.length = 4 + bs.length := by
      rw [hf3, hbs]
      simp [serializeBytesOpt, u32le_length]
    omega
  simp only [parseWitnessArgs]
  rw [if_pos (by rw [hfromT, hfrom16, hfromO2, hfromO3, hlen]; omega)]
  have hslice2' : List.take (16 + f1.length + f2.length - (16 + f1.length)) (f2 ++ f3) = f2 := by
    rw [Nat.add_sub_cancel_left, List.take_left]
  simp only [hfromO2, hfromO3, hslice1, hdropO2, hslice2', hdropO3, hp1, hp2, hp3]

/-- A serialized `WitnessArgs` is never the empty byte string. -/
theorem serializeWitnessArgs_ne_nil (w : WitnessArgs) : serializeWitnessArgs w ≠ [] := by
  intro he
  have := congrArg List.length he
  rw [serializeWitnessArgs_length] at this
  simp at this

/-- The padding loop guarantees position `i` exists. -/
theorem padWitnesses_length_gt (ws : List (List Nat)) (i : Nat) :
    i < (padWitnesses ws i).length := by
  simp only [padWitnesses, List.length_append, List.length_replicate]
  omega

/-- Padding is a no-op when position `i` already exists. -/
theorem padWitnesses_of_lt (ws : List (List Nat)) (i : Nat) (h : i < ws.length) :
    padWitnesses ws i = ws := by
  simp only [padWitnesses]
  rw [show i + 1 - ws.length = 0 by omega]
  simp

/-- Padding does not change the bytes read at position `i` (a missing
position reads as the empty witness either way). -/
theorem padWitnesses_getElem (ws : List (List Nat)) (i : Nat) :
    ((padWitnesses ws i)[i]?).getD [] = (ws[i]?).getD [] := by
  by_cases h : i < ws.length
  · rw [padWitnesses_of_lt ws i h]
  · rw [padWitnesses, List.getElem?_append_right (by omega)]
    rw [List.getElem?_eq_getElem (by simp [List.length_replicate]; omega)]
    rw [List.getElem?_eq_none (by omega)]
    simp [List.getElem_replicate]

/-- Re-serializing a parsed `BytesOpt` needs no more bytes than the slice it
was parsed from. -/
theorem parseBytesOpt_ser_le (s : List Nat) (o : Option (List Nat))
    (h : parseBytesOpt s = some o) : (serializeBytesOpt o).length ≤ s.length := by
  simp only [parseBytesOpt] at h
  split at h
  · simp only [Option.some.injEq] at h
    subst h
    simp [serializeBytesOpt]
  · split at h
    · next hc =>
      simp only [Option.some.injEq] at h
      subst h
      simp only [serializeBytesOpt, List.length_append, u32le_length, List.length_drop]
      omega
    · exact Option.noConfusion h

/-- Re-serializing any field of a parsed `WitnessArgs` needs no more bytes
than the witness it was parsed from. -/
theorem parseWitnessArgs_ser_le (bs : List Nat) (w : WitnessArgs)
    (h : parseWitnessArgs bs = some w) :
    (serializeBytesOpt w.lock).length ≤ bs.length ∧
    (serializeBytesOpt w.input_type).length ≤ bs.length ∧
    (serializeBytesOpt w.output_type).length ≤ bs.length := by
  simp only [parseWitnessArgs] at h
  split at h
  · split at h
    next f1 f2 f3 hp1 hp2 hp3 =>
      simp only [Option.some.injEq] at h
      subst h
      have b1 := parseBytesOpt_ser_le _ _ hp1
      have b2 := parseBytesOpt_ser_le _ _ hp2
      have b3 := parseBytesOpt_ser_le _ _ hp3
      have hslice : ∀ (k n : Nat), (List.take k (List.drop n bs)).length ≤ bs.length :=
        fun k n => by rw [List.length_take, List.length_drop]; omega
      exact ⟨le_trans b1 (hslice _ _), le_trans b2 (hslice _ _),
        le_trans b3 (by rw [List.length_drop]; omega)⟩
    next => exact Option.noConfusion h
  · exact Option.noConfusion h

/-- Replacing the witness at the group's first input index by the same
`WitnessArgs` with a new lock field does not change the signing digest: the
digest replaces that lock with the zero-lock either way.  This is the heart
of signer idempotence. -/
theorem generateMessage_eq_of_set (blake2b : List Nat → List Nat) (hash : List Nat)
    (ninp : Nat) (W : List (List Nat)) (g : ScriptGroup) (i : Nat) (rest : List Nat)
    (zl σ : List Nat) (cur : WitnessArgs)
    (hg : g.input_indices = i :: rest) (hlen : i < W.length) (hi : i ∉ rest)
    (hninp : i < ninp)
    (hcur : parseOrDefaultWitnessArgs ((W.get? i).getD []) = some cur)
    (hbound : (serializeWitnessArgs { cur with lock := some σ }).length < 2 ^ 32) :
    generateMessage blake2b
        ⟨hash, ninp, W.set i (serializeWitnessArgs { cur with lock := some σ })⟩ g zl =
      generateMessage blake2b ⟨hash, ninp, W⟩ g zl := by
  obtain ⟨wi, hwi⟩ : ∃ w, W[i]? = some w := ⟨W[i], List.getElem?_eq_getElem hlen⟩
  set SW := serializeWitnessArgs { cur with lock := some σ } with hSW
  have hget2 : ((W.set i SW)[i]?).getD [] = SW := by
    rw [List.getElem?_set_self', hwi]
    rfl
  have hparse2 : parseOrDefaultWitnessArgs SW = some { cur with lock := some σ } := by
    rw [parseOrDefaultWitnessArgs, if_neg (serializeWitnessArgs_ne_nil _), hSW]
    exact parseWitnessArgs_serializeWitnessArgs _ (hSW ▸ hbound)
  have hguard : ¬ (W.length ≤ i) := by omega
  simp only [generateMessage, hg, List.get?_eq_getElem?, List.length_set] at *
  rw [if_neg hguard, if_neg hguard]
  have hother : rest.filterMap (fun idx => (W.set i SW)[idx]?) =
      rest.filterMap (fun idx => W[idx]?) := by
    apply List.filterMap_congr
    intro idx hidx
    exact List.getElem?_set_ne (by rintro rfl; exact hi hidx)
  have houter : (W.set i SW).drop ninp = W.drop ninp := List.drop_set_of_lt _ _ hninp
  simp only [hget2, hparse2, hcur, hother, houter]

/-- C7: sighash signing is idempotent.  With a deterministic wallet (the
embedded wallet is a pure function of owner id and message, which is the
claim's hypothesis), 65-byte signatures, a script group whose first input
index is a real input position not repeated in the rest, and a witness small
enough to reserialize within the u32 molecule bound, a second application of
`sign_tx_with_owner_id` to its own output recomputes the same digest and
rewrites the same signature, leaving the transaction unchanged. -/
theorem c7_sighash_sign_idempotent (blake2b : List Nat → List Nat) (wallet : Wallet)
    (owner_id : List Nat) (tx tx' : TxView) (g : ScriptGroup) (i : Nat) (rest : List Nat)
    (hg : g.input_indices = i :: rest) (hi : i ∉ rest) (hninp : i < tx.inputs_len)
    (hsiglen : ∀ id m s, wallet.sign id m = some s → s.length = 65)
    (hwlen : ((tx.witnesses.get? i).getD []).length < 2 ^ 30)
    (hok : sighashSignTxWithOwnerId blake2b wallet owner_id tx g = .ok tx') :
    sighashSignTxWithOwnerId blake2b wallet owner_id tx' g = .ok tx' := by
  simp only [sighashSignTxWithOwnerId, hg] at hok ⊢
  split at hok
  next e hmsg => exact Except.noConfusion hok
  next m hmsg =>
  split at hok
  next hsig => exact Except.noConfusion hok
  next σ hsig =>
  split at hok
  next hcur => exact Except.noConfusion hok
  next cur hcur =>
  simp only [Except.ok.injEq] at hok
  subst hok
  have hW1len : i < (padWitnesses tx.witnesses i).length := padWitnesses_length_gt _ _
  have hσ : σ.length = 65 := hsiglen _ _ _ hsig
  have hwd : (((padWitnesses tx.witnesses i).get? i).getD []) =
      ((tx.witnesses.get? i).getD []) := by
    simp only [List.get?_eq_getElem?]
    exact padWitnesses_getElem _ _
  have hbound : (serializeWitnessArgs
      { cur with lock := some σ }).length < 2 ^ 32 := by
    rw [serializeWitnessArgs_length]
    have hl : (serializeBytesOpt ({ cur with lock := some σ } : WitnessArgs).lock).length =
        4 + 65 := by
      simp [serializeBytesOpt_length, hσ]
    rw [hl]
    simp only [parseOrDefaultWitnessArgs] at hcur
    split at hcur
    · simp only [Option.some.injEq] at hcur
      subst hcur
      simp [WitnessArgs.empty, serializeBytesOpt]
    · obtain ⟨-, b2, b3⟩ := parseWitnessArgs_ser_le _ _ hcur
      rw [hwd] at b2 b3
      simp only at b2 b3 ⊢
      omega
  have hset_len : i < ((padWitnesses tx.witnesses i).set i
      (serializeWitnessArgs { cur with lock := some σ })).length := by
    rw [List.length_set]; exact hW1len
  have hget2 : (((padWitnesses tx.witnesses i).set i
      (serializeWitnessArgs { cur with lock := some σ }))[i]?).getD [] =
      serializeWitnessArgs { cur with lock := some σ } := by
    rw [List.getElem?_set_self', List.getElem?_eq_getElem hW1len]
    rfl
  have hparse2 : parseOrDefaultWitnessArgs
      (serializeWitnessArgs { cur with lock := some σ }) =
      some { cur with lock := some σ } := by
    rw [parseOrDefaultWitnessArgs, if_neg (serializeWitnessArgs_ne_nil _)]
    exact parseWitnessArgs_serializeWitnessArgs _ hbound
  have hmsg2 := generateMessage_eq_of_set blake2b tx.hash tx.inputs_len
    (padWitnesses tx.witnesses i) g i rest (List.replicate 65 0) σ cur
    hg hW1len hi hninp hcur hbound
  simp only [padWitnesses_of_lt _ _ hset_len, hmsg2, hmsg, hsig, List.get?_eq_getElem?,
    hget2, hparse2, List.set_set]

/-- C7 witness: signing the already-signed fixture transaction again is a
no-op. -/
theorem c7_sighash_sign_idempotent_witness :
    sighashSignTxWithOwnerId hash0 w65 [1] t7Signed g0 = .ok t7Signed :=
  c7_sighash_sign_idempotent hash0 w65 [1] t7 t7Signed g0 0 [] rfl
    (List.not_mem_nil 0) (by decide)
    (fun _ _ s h => by
      injection h with h2
      rw [← h2]
      decide)
    (by decide) (by decide)

/-- The fuel argument of the placement scan is irrelevant once it covers the
remaining bytes. -/
theorem placeLoopGo_congr (lf sig : List Nat) :
    ∀ (f1 : Nat) (f2 idx : Nat), lf.length ≤ idx + f1 → lf.length ≤ idx + f2 →
      placeLoopGo lf sig f1 idx = placeLoopGo lf sig f2 idx := by
  intro f1
  induction f1 with
  | zero =>
    intro f2 idx h1 h2
    cases f2 with
    | zero => rfl
    | succ f2 =>
      simp only [placeLoopGo]
      rw [if_neg (by omega)]
  | succ f1 ih =>
    intro f2 idx h1 h2
    cases f2 with
    | zero =>
      simp only [placeLoopGo]
      rw [if_neg (by omega)]
    | succ f2 =>
      simp only [placeLoopGo]
      by_cases hidx : idx < lf.length
      · rw [if_pos hidx, if_pos hidx]
        by_cases hsl : lf.length < idx + 65
        · rw [if_pos hsl, if_pos hsl]
        · rw [if_neg hsl, if_neg hsl]
          by_cases he : (lf.drop idx).take 65 = sig
          · rw [if_pos he, if_pos he]
          · rw [if_neg he, if_neg he]
            by_cases hz : (lf.drop idx).take 65 = List.replicate 65 0
            · rw [if_pos hz, if_pos hz]
            · rw [if_neg hz, if_neg hz]
              exact ih f2 (idx + 65) (by omega) (by omega)
      · rw [if_neg hidx, if_neg hidx]

/-- The recurrence the source loop (signer.rs:330-339) satisfies. -/
theorem placeLoop_eq (lf sig : List Nat) (idx : Nat) :
    placeLoop lf sig idx =
      if idx < lf.length then
        if lf.length < idx + 65 then .error .panic
        else
          if (lf.drop idx).take 65 = sig then .ok lf
          else if (lf.drop idx).take 65 = List.replicate 65 0 then
            if sig.length = 65 then .ok (lf.take idx ++ sig ++ lf.drop (idx + 65))
            else .error .panic
          else placeLoop lf sig (idx + 65)
      else .error .tooManySignatures := by
  conv_lhs => rw [placeLoop, placeLoopGo]
  by_cases hidx : idx < lf.length
  · rw [if_pos hidx, if_pos hidx]
    by_cases hsl : lf.length < idx + 65
    · rw [if_pos hsl, if_pos hsl]
    · rw [if_neg hsl, if_neg hsl]
      by_cases he : (lf.drop idx).take 65 = sig
      · rw [if_pos he, if_pos he]
      · rw [if_neg he, if_neg he]
        by_cases hz : (lf.drop idx).take 65 = List.replicate 65 0
        · rw [if_pos hz, if_pos hz]
        · rw [if_neg hz, if_neg hz]
          exact placeLoopGo_congr lf sig _ _ _ (by omega) (by omega)
  · rw [if_neg hidx, if_neg hidx]

/-- The fuel argument of the chunker is irrelevant once it covers the list. -/
theorem chunk65Go_congr : ∀ (f1 f2 : Nat) (l : List Nat), l.length ≤ f1 → l.length ≤ f2 →
    chunk65Go f1 l = chunk65Go f2 l := by
  intro f1
  induction f1 with
  | zero =>
    intro f2 l h1 h2
    have : l = [] := List.eq_nil_of_length_eq_zero (by omega)
    subst this
    cases f2 <;> simp [chunk65Go]
  | succ f1 ih =>
    intro f2 l h1 h2
    by_cases hl : l = []
    · subst hl
      cases f2 <;> simp [chunk65Go]
    · have hpos : 0 < l.length := List.length_pos.mpr hl
      cases f2 with
      | zero => omega
      | succ f2 =>
        simp only [chunk65Go, if_neg hl]
        rw [ih f2 (l.drop 65) (by simp [List.length_drop]; omega)
          (by simp [List.length_drop]; omega)]

/-- The recurrence of the 65-byte chunker. -/
theorem chunk65_eq (l : List Nat) :
    chunk65 l = if l = [] then [] else l.take 65 :: chunk65 (l.drop 65) := by
  by_cases hl : l = []
  · subst hl; rfl
  · rw [if_neg hl]
    have hpos : 0 < l.length := List.length_pos.mpr hl
    conv_lhs => rw [chunk65]
    cases hlen : l.length with
    | zero => omega
    | succ n =>
      simp only [chunk65Go, if_neg hl]
      rw [chunk65]
      exact congrArg _ (chunk65Go_congr n (l.drop 65).length (l.drop 65)
        (by simp [List.length_drop]; omega) le_rfl)

/-- Flattening the 65-byte chunks recovers the original string. -/
theorem chunk65_flatten (l : List Nat) : (chunk65 l).flatten = l := by
  suffices h : ∀ (n : Nat) (l : List Nat), l.length ≤ n → (chunk65 l).flatten = l from
    h l.length l le_rfl
  intro n
  induction n with
  | zero =>
    intro l hl
    have : l = [] := List.eq_nil_of_length_eq_zero (by omega)
    simp [this, chunk65_eq]
  | succ n ih =>
    intro l hl
    rw [chunk65_eq]
    by_cases hl0 : l = []
    · simp [hl0]
    · have hpos : 0 < l.length := List.length_pos.mpr hl0
      rw [if_neg hl0, List.flatten_cons, ih (l.drop 65) (by rw [List.length_drop]; omega)]
      exact List.take_append_drop 65 l

/-- When the length is a multiple of 65, every chunk is a full slot. -/
theorem chunk65_all65 (l : List Nat) (hdvd : 65 ∣ l.length) :
    ∀ b ∈ chunk65 l, b.length = 65 := by
  suffices h : ∀ (n : Nat) (l : List Nat), l.length ≤ n → 65 ∣ l.length →
      ∀ b ∈ chunk65 l, b.length = 65 from h l.length l le_rfl hdvd
  intro n
  induction n with
  | zero =>
    intro l hl hd
    have : l = [] := List.eq_nil_of_length_eq_zero (by omega)
    simp [this, chunk65_eq]
  | succ n ih =>
    intro l hl hd
    rw [chunk65_eq]
    by_cases hl0 : l = []
    · simp [hl0]
    · have hpos : 0 < l.length := List.length_pos.mpr hl0
      have h65 : 65 ≤ l.length := by
        obtain ⟨k, hk⟩ := hd
        cases k with
        | zero => omega
        | succ k =>
          have : l.length = 65 * k + 65 := by omega
          omega
      rw [if_neg hl0]
      intro b hb
      rcases List.mem_cons.mp hb with rfl | hmem
      · rw [List.length_take]; omega
      · refine ih (l.drop 65) (by rw [List.length_drop]; omega) ?_ b hmem
        rw [List.length_drop]
        obtain ⟨k, hk⟩ := hd
        exact ⟨k - 1, by omega⟩

/-- Chunking the flattening of full slots recovers the slots. -/
theorem chunk65_flatten_inv (bs : List (List Nat)) (h : ∀ b ∈ bs, b.length = 65) :
    chunk65 bs.flatten = bs := by
  induction bs with
  | nil => rfl
  | cons b rest ih =>
    have hb : b.length = 65 := h b (List.mem_cons_self b rest)
    rw [List.flatten_cons, chunk65_eq]
    have hne : ¬(b ++ rest.flatten = []) := by
      intro he
      have := congrArg List.length he
      simp [hb] at this
    rw [if_neg hne]
    rw [show (65 : Nat) = b.length from hb.symm, List.take_left, List.drop_left]
    rw [ih (fun x hx => h x (List.mem_cons_of_mem b hx))]

/-- The spec-side slot scan preserves the number of slots. -/
theorem placeSlots_length (sig : List Nat) :
    ∀ (bs bs' : List (List Nat)), placeSlots sig bs = some bs' → bs'.length = bs.length := by
  intro bs
  induction bs with
  | nil => intro bs' h; exact Option.noConfusion h
  | cons b rest ih =>
    intro bs' h
    simp only [placeSlots] at h
    split at h
    · simp only [Option.some.injEq] at h; subst h; rfl
    · split at h
      · simp only [Option.some.injEq] at h; subst h; simp
      · cases hrec : placeSlots sig rest with
        | none => rw [hrec] at h; exact Option.noConfusion h
        | some bs2 =>
          rw [hrec] at h
          simp only [Option.map_some', Option.some.injEq] at h
          subst h
          simp [ih bs2 hrec]

/-- The spec-side slot scan preserves full-slot sizes. -/
theorem placeSlots_all65 (sig : List Nat) (hsig : sig.length = 65) :
    ∀ (bs bs' : List (List Nat)), (∀ b ∈ bs, b.length = 65) →
      placeSlots sig bs = some bs' → ∀ b ∈ bs', b.length = 65 := by
  intro bs
  induction bs with
  | nil => intro bs' _ h; exact Option.noConfusion h
  | cons b rest ih =>
    intro bs' hall h
    simp only [placeSlots] at h
    split at h
    · simp only [Option.some.injEq] at h; subst h; exact hall
    · split at h
      · simp only [Option.some.injEq] at h
        subst h
        intro x hx
        rcases List.mem_cons.mp hx with rfl | hmem
        · exact hsig
        · exact hall x (List.mem_cons_of_mem b hmem)
      · cases hrec : placeSlots sig rest with
        | none => rw [hrec] at h; exact Option.noConfusion h
        | some bs2 =>
          rw [hrec] at h
          simp only [Option.map_some', Option.some.injEq] at h
          subst h
          intro x hx
          rcases List.mem_cons.mp hx with rfl | hmem
          · exact hall x (List.mem_cons_self x rest)
          · exact ih bs2 (fun y hy => hall y (List.mem_cons_of_mem b hy)) hrec x hmem

/-- The source's flat scan equals the spec's slot scan when the scanned
region is a whole number of 65-byte slots: `TooManySignatures` on
exhaustion, otherwise the reassembled lock field. -/
theorem placeLoop_eq_spec (lf sig : List Nat) (cfgLen : Nat)
    (hwf : lf.length ≤ cfgLen ∨ (cfgLen ≤ lf.length ∧ 65 ∣ (lf.length - cfgLen)))
    (hsig : sig.length = 65) :
    placeLoop lf sig cfgLen =
      match placeSlots sig (chunk65 (lf.drop cfgLen)) with
      | none => .error .tooManySignatures
      | some bs => .ok (lf.take cfgLen ++ bs.flatten) := by
  suffices h : ∀ (n cfgLen : Nat), lf.length - cfgLen ≤ n →
      (lf.length ≤ cfgLen ∨ (cfgLen ≤ lf.length ∧ 65 ∣ (lf.length - cfgLen))) →
      placeLoop lf sig cfgLen =
        match placeSlots sig (chunk65 (lf.drop cfgLen)) with
        | none => .error .tooManySignatures
        | some bs => .ok (lf.take cfgLen ++ bs.flatten) from
    h (lf.length - cfgLen) cfgLen le_rfl hwf
  intro n
  induction n with
  | zero =>
    intro cfg hle _
    have hcfg : lf.length ≤ cfg := by omega
    rw [placeLoop_eq, if_neg (by omega), List.drop_eq_nil_of_le hcfg]
    rfl
  | succ n ih =>
    intro cfg hle hwf
    by_cases hlt : cfg < lf.length
    · have hdvd : 65 ∣ (lf.length - cfg) := by
        rcases hwf with h1 | ⟨-, h2⟩
        · omega
        · exact h2
      have h65 : cfg + 65 ≤ lf.length := by
        obtain ⟨k, hk⟩ := hdvd
        cases k with
        | zero => omega
        | succ k =>
          have : lf.length - cfg = 65 * k + 65 := by omega
          omega
      have hdropne : lf.drop cfg ≠ [] := by
        intro he
        have := congrArg List.length he
        rw [List.length_drop] at this
        simp at this
        omega
      have hchunk : chunk65 (lf.drop cfg) =
          (lf.drop cfg).take 65 :: chunk65 (lf.drop (cfg + 65)) := by
        rw [chunk65_eq, if_neg hdropne, List.drop_drop]
      rw [placeLoop_eq, if_pos hlt, if_neg (by omega), hchunk]
      by_cases he : (lf.drop cfg).take 65 = sig
      · rw [if_pos he]
        simp only [placeSlots, if_pos he]
        rw [show lf.take cfg ++ ((lf.drop cfg).take 65 :: chunk65 (lf.drop (cfg + 65))).flatten
            = lf from by
          rw [List.flatten_cons, chunk65_flatten, ← List.drop_drop,
            List.take_append_drop, List.take_append_drop]]
      · rw [if_neg he]
        by_cases hz : (lf.drop cfg).take 65 = List.replicate 65 0
        · rw [if_pos hz, if_pos hsig]
          simp only [placeSlots, if_neg he, if_pos hz]
          rw [show (sig :: chunk65 (lf.drop (cfg + 65))).flatten =
              sig ++ lf.drop (cfg + 65) from by rw [List.flatten_cons, chunk65_flatten]]
          rw [List.append_assoc]
        · rw [if_neg hz]
          have hwf2 : lf.length ≤ cfg + 65 ∨
              (cfg + 65 ≤ lf.length ∧ 65 ∣ (lf.length - (cfg + 65))) := by
            by_cases hx : lf.length ≤ cfg + 65
            · exact Or.inl hx
            · refine Or.inr ⟨by omega, ?_⟩
              obtain ⟨k, hk⟩ := hdvd
              exact ⟨k - 1, by omega⟩
          rw [ih (cfg + 65) (by omega) hwf2]
          simp only [placeSlots, if_neg he, if_neg hz]
          cases hrec : placeSlots sig (chunk65 (lf.drop (cfg + 65))) with
          | none => rfl
          | some bs =>
            simp only [Option.map_some']
            rw [List.flatten_cons, show lf.take (cfg + 65) =
              lf.take cfg ++ (lf.drop cfg).take 65 from List.take_add lf cfg 65]
            rw [List.append_assoc]
    · have hcfg : lf.length ≤ cfg := by omega
      rw [placeLoop_eq, if_neg (by omega), List.drop_eq_nil_of_le hcfg]
      rfl

/-- A successful placement never changes the lock field length. -/
theorem placeLoop_ok_length (lf sig : List Nat) (idx : Nat) (lf' : List Nat)
    (h : placeLoop lf sig idx = .ok lf') : lf'.length = lf.length := by
  suffices hh : ∀ (n idx : Nat), lf.length - idx ≤ n → placeLoop lf sig idx = .ok lf' →
      lf'.length = lf.length from hh (lf.length - idx) idx le_rfl h
  intro n
  induction n with
  | zero =>
    intro idx hle hx
    rw [placeLoop_eq, if_neg (by omega)] at hx
    exact Except.noConfusion hx
  | succ n ih =>
    intro idx hle hx
    rw [placeLoop_eq] at hx
    by_cases hidx : idx < lf.length
    · rw [if_pos hidx] at hx
      by_cases hsl : lf.length < idx + 65
      · rw [if_pos hsl] at hx; exact Except.noConfusion hx
      · rw [if_neg hsl] at hx
        by_cases he : (lf.drop idx).take 65 = sig
        · rw [if_pos he] at hx
          simp only [Except.ok.injEq] at hx
          subst hx; rfl
        · rw [if_neg he] at hx
          by_cases hz : (lf.drop idx).take 65 = List.replicate 65 0
          · rw [if_pos hz] at hx
            by_cases h65 : sig.length = 65
            · rw [if_pos h65] at hx
              simp only [Except.ok.injEq] at hx
              subst hx
              simp only [List.length_append, List.length_take, List.length_drop, h65]
              omega
            · rw [if_neg h65] at hx; exact Except.noConfusion hx
          · rw [if_neg hz] at hx
            exact ih (idx + 65) (by omega) hx
    · rw [if_neg hidx] at hx; exact Except.noConfusion hx

/-- Folding placements over all signatures preserves the lock field
length. -/
theorem placeAll_ok_length (cfgLen : Nat) (sigs : List (List Nat)) :
    ∀ (lf lf' : List Nat), placeAll cfgLen lf sigs = .ok lf' → lf'.length = lf.length := by
  induction sigs with
  | nil =>
    intro lf lf' h
    simp only [placeAll, Except.ok.injEq] at h
    subst h; rfl
  | cons sig rest ih =>
    intro lf lf' h
    simp only [placeAll] at h
    cases hp : placeLoop lf sig cfgLen with
    | error e => rw [hp] at h; exact Except.noConfusion h
    | ok lf1 =>
      rw [hp] at h
      rw [ih lf1 lf' h, placeLoop_ok_length lf sig cfgLen lf1 hp]

/-- Flattened length of a list of full slots. -/
theorem flatten_length_all65 (bs : List (List Nat)) (h : ∀ b ∈ bs, b.length = 65) :
    bs.flatten.length = 65 * bs.length := by
  induction bs with
  | nil => simp
  | cons b rest ih =>
    simp only [List.flatten_cons, List.length_append, List.length_cons,
      h b (List.mem_cons_self b rest), ih (fun x hx => h x (List.mem_cons_of_mem b hx))]
    ring

/-- The source's signature fold equals the spec's slot fold on well-formed
lock fields with 65-byte signatures. -/
theorem placeAll_eq_spec (cfgLen : Nat) (sigs : List (List Nat)) :
    ∀ (lf : List Nat),
      (lf.length ≤ cfgLen ∨ (cfgLen ≤ lf.length ∧ 65 ∣ (lf.length - cfgLen))) →
      (∀ s ∈ sigs, s.length = 65) →
      placeAll cfgLen lf sigs =
        match placeAllSpec (chunk65 (lf.drop cfgLen)) sigs with
        | .error e => .error e
        | .ok bs => .ok (lf.take cfgLen ++ bs.flatten) := by
  induction sigs with
  | nil =>
    intro lf hwf hs
    simp only [placeAll, placeAllSpec]
    rw [chunk65_flatten, List.take_append_drop]
  | cons sig rest ih =>
    intro lf hwf hs
    have hsig : sig.length = 65 := hs sig (List.mem_cons_self sig rest)
    simp only [placeAll, placeAllSpec]
    rw [placeLoop_eq_spec lf sig cfgLen hwf hsig]
    cases hp : placeSlots sig (chunk65 (lf.drop cfgLen)) with
    | none => rfl
    | some bs =>
      simp only []
      by_cases hcase : lf.length ≤ cfgLen
      · exfalso
        rw [List.drop_eq_nil_of_le hcase] at hp
        exact Option.noConfusion hp
      · have hrange : cfgLen ≤ lf.length ∧ 65 ∣ (lf.length - cfgLen) := by
          rcases hwf with h1 | h2
          · omega
          · exact h2
        have hall : ∀ b ∈ chunk65 (lf.drop cfgLen), b.length = 65 :=
          chunk65_all65 _ (by rw [List.length_drop]; exact hrange.2)
        have hall' : ∀ b ∈ bs, b.length = 65 := placeSlots_all65 sig hsig _ _ hall hp
        have htakelen : (lf.take cfgLen).length = cfgLen := by
          rw [List.length_take]; omega
        have hflat : bs.flatten.length = 65 * bs.length := flatten_length_all65 bs hall'
        have hwf1 : (lf.take cfgLen ++ bs.flatten).length ≤ cfgLen ∨
            (cfgLen ≤ (lf.take cfgLen ++ bs.flatten).length ∧
              65 ∣ ((lf.take cfgLen ++ bs.flatten).length - cfgLen)) := by
          right
          constructor
          · rw [List.length_append, htakelen]; omega
          · rw [List.length_append, htakelen, hflat]
            exact ⟨bs.length, by omega⟩
        have hrest := ih (lf.take cfgLen ++ bs.flatten) hwf1
          (fun s hsm => hs s (List.mem_cons_of_mem sig hsm))
        rw [hrest, List.drop_left' htakelen, chunk65_flatten_inv bs hall',
          List.take_left' htakelen]

/-- Placing a signature twice in a row is a no-op. -/
theorem placeSlots_self (sig : List Nat) :
    ∀ (bs bs' : List (List Nat)), placeSlots sig bs = some bs' →
      placeSlots sig bs' = some bs' := by
  intro bs
  induction bs with
  | nil => intro bs' h; exact Option.noConfusion h
  | cons b rest ih =>
    intro bs' h
    simp only [placeSlots] at h
    by_cases he : b = sig
    · rw [if_pos he] at h
      simp only [Option.some.injEq] at h
      subst h
      simp only [placeSlots, if_pos he]
    · rw [if_neg he] at h
      by_cases hz : b = List.replicate 65 0
      · rw [if_pos hz] at h
        simp only [Option.some.injEq] at h
        subst h
        simp [placeSlots]
      · rw [if_neg hz] at h
        cases hrec : placeSlots sig rest with
        | none => rw [hrec] at h; exact Option.noConfusion h
        | some bs2 =>
          rw [hrec] at h
          simp only [Option.map_some', Option.some.injEq] at h
          subst h
          simp only [placeSlots, if_neg he, if_neg hz, ih bs2 hrec, Option.map_some']

/-- A signature that scans as already-placed still does after any further
placement (signatures are non-zero, so no later write erases it). -/
theorem placeSlots_preserve (sig tau : List Nat) (hnz : sig ≠ List.replicate 65 0) :
    ∀ (bs bs2 : List (List Nat)), placeSlots sig bs = some bs →
      placeSlots tau bs = some bs2 → placeSlots sig bs2 = some bs2 := by
  intro bs
  induction bs with
  | nil => intro bs2 h; exact Option.noConfusion h
  | cons b rest ih =>
    intro bs2 hself htau
    simp only [placeSlots] at hself htau
    by_cases he : b = sig
    · rw [if_pos he] at hself
      by_cases het : b = tau
      · rw [if_pos het] at htau
        simp only [Option.some.injEq] at htau
        subst htau
        simp only [placeSlots, if_pos he]
      · rw [if_neg het, if_neg (by rw [he]; exact hnz)] at htau
        cases hrec : placeSlots tau rest with
        | none => rw [hrec] at htau; exact Option.noConfusion htau
        | some rest2 =>
          rw [hrec] at htau
          simp only [Option.map_some', Option.some.injEq] at htau
          subst htau
          simp only [placeSlots, if_pos he]
    · rw [if_neg he] at hself
      by_cases hz : b = List.replicate 65 0
      · rw [if_pos hz] at hself
        exfalso
        injection hself with h2
        injection h2 with h3 h4
        exact he h3.symm
      · rw [if_neg hz] at hself
        cases hrecs : placeSlots sig rest with
        | none => rw [hrecs] at hself; exact Option.noConfusion hself
        | some rests =>
          rw [hrecs] at hself
          simp only [Option.map_some', Option.some.injEq] at hself
          obtain ⟨-, h3⟩ := List.cons.injEq _ _ _ _ |>.mp hself
          rw [h3] at hrecs
          by_cases het : b = tau
          · rw [if_pos het] at htau
            simp only [Option.some.injEq] at htau
            subst htau
            simp only [placeSlots, if_neg he, if_neg hz, hrecs, Option.map_some']
          · rw [if_neg het, if_neg hz] at htau
            cases hrect : placeSlots tau rest with
            | none => rw [hrect] at htau; exact Option.noConfusion htau
            | some restt =>
              rw [hrect] at htau
              simp only [Option.map_some', Option.some.injEq] at htau
              subst htau
              simp only [placeSlots, if_neg he, if_neg hz,
                ih restt hrecs hrect, Option.map_some']

/-- An already-placed signature survives a whole fold of further
placements. -/
theorem placeAllSpec_keeps (sig : List Nat) (hnz : sig ≠ List.replicate 65 0) :
    ∀ (rest : List (List Nat)) (b1 bs' : List (List Nat)),
      (∀ t ∈ rest, t ≠ List.replicate 65 0) →
      placeSlots sig b1 = some b1 → placeAllSpec b1 rest = .ok bs' →
      placeSlots sig bs' = some bs' := by
  intro rest
  induction rest with
  | nil =>
    intro b1 bs' _ hself h
    simp only [placeAllSpec, Except.ok.injEq] at h
    subst h
    exact hself
  | cons tau rest2 ih =>
    intro b1 bs' hts hself h
    simp only [placeAllSpec] at h
    cases hp : placeSlots tau b1 with
    | none => rw [hp] at h; exact Except.noConfusion h
    | some b2 =>
      rw [hp] at h
      exact ih b2 bs' (fun t ht => hts t (List.mem_cons_of_mem tau ht))
        (placeSlots_preserve sig tau hnz b1 b2 hself hp) h

/-- Folding the same non-zero signatures a second time changes nothing. -/
theorem placeAllSpec_idem (sigs : List (List Nat)) :
    ∀ (bs bs' : List (List Nat)), (∀ s ∈ sigs, s ≠ List.replicate 65 0) →
      placeAllSpec bs sigs = .ok bs' → placeAllSpec bs' sigs = .ok bs' := by
  induction sigs with
  | nil =>
    intro bs bs' _ h
    rfl
  | cons sig rest ih =>
    intro bs bs' hnz h
    simp only [placeAllSpec] at h ⊢
    cases hp : placeSlots sig bs with
    | none => rw [hp] at h; exact Except.noConfusion h
    | some b1 =>
      rw [hp] at h
      have hself : placeSlots sig b1 = some b1 := placeSlots_self sig bs b1 hp
      have hkeep : placeSlots sig bs' = some bs' :=
        placeAllSpec_keeps sig (hnz sig (List.mem_cons_self sig rest)) rest b1 bs'
          (fun t ht => hnz t (List.mem_cons_of_mem sig ht)) hself h
      rw [hkeep]
      exact ih b1 bs' (fun s hs => hnz s (List.mem_cons_of_mem sig hs)) h

/-- Every collected signature was produced by the wallet on the message. -/
theorem collectSignatures_ok_mem (wallet : Wallet) (msg : List Nat) :
    ∀ (ids : List (List Nat)) (sigs : List (List Nat)),
      collectSignatures wallet msg ids = .ok sigs →
      ∀ s ∈ sigs, ∃ id, wallet.sign id msg = some s := by
  intro ids
  induction ids with
  | nil =>
    intro sigs h s hs
    simp only [collectSignatures, Except.ok.injEq] at h
    subst h
    exact absurd hs (List.not_mem_nil s)
  | cons id rest ih =>
    intro sigs h s hs
    simp only [collectSignatures] at h
    cases hsg : wallet.sign id msg with
    | none => rw [hsg] at h; exact Except.noConfusion h
    | some sig =>
      rw [hsg] at h
      cases hrec : collectSignatures wallet msg rest with
      | error e => rw [hrec] at h; exact Except.noConfusion h
      | ok sigs2 =>
        rw [hrec] at h
        simp only [Except.ok.injEq] at h
        subst h
        rcases List.mem_cons.mp hs with rfl | hmem
        · exact ⟨id, hsg⟩
        · exact ih sigs2 hrec s hmem

/-- The multisig signer computes exactly the spec-worded slot assembly,
provided the pre-existing lock field is a whole number of 65-byte slots
past the config data and the wallet signs with 65 bytes. -/
theorem multisigSignTx_eq_spec (blake2b : List Nat → List Nat) (wallet : Wallet)
    (config : MultisigConfig) (tx : TxView) (g : ScriptGroup) (i : Nat) (rest : List Nat)
    (hg : g.input_indices = i :: rest)
    (hsigs65 : ∀ id m s, wallet.sign id m = some s → s.length = 65)
    (hwf : ∀ w lf, parseOrDefaultWitnessArgs
        (((padWitnesses tx.witnesses i).get? i).getD []) = some w →
      w.lock = some lf → lf.length ≤ config.to_witness_data.length ∨
        (config.to_witness_data.length ≤ lf.length ∧
          65 ∣ (lf.length - config.to_witness_data.length))) :
    multisigSignTx blake2b wallet config tx g = multisigSignSpec blake2b wallet config tx g := by
  simp only [multisigSignTx, multisigSignSpec, hg]
  cases hmsg : generateMessage blake2b
      { tx with witnesses := padWitnesses tx.witnesses i } g
      (config.to_witness_data ++ List.replicate (65 * config.threshold) 0) with
  | error e => rfl
  | ok m =>
  dsimp only
  cases hsigs : collectSignatures wallet m
      (config.sighash_addresses.filter (fun id => wallet.match_id id)) with
  | error e => rfl
  | ok sigs =>
  dsimp only
  cases hcur : parseOrDefaultWitnessArgs
      (((padWitnesses tx.witnesses i).get? i).getD []) with
  | none => rfl
  | some cur =>
  dsimp only
  have hs65 : ∀ s ∈ sigs, s.length = 65 := by
    intro s hs
    obtain ⟨id, hid⟩ := collectSignatures_ok_mem wallet m _ sigs hsigs s hs
    exact hsigs65 _ _ _ hid
  have hwfl : (cur.lock.getD (config.to_witness_data ++
        List.replicate (65 * config.threshold) 0)).length ≤ config.to_witness_data.length ∨
      (config.to_witness_data.length ≤ (cur.lock.getD (config.to_witness_data ++
        List.replicate (65 * config.threshold) 0)).length ∧
        65 ∣ ((cur.lock.getD (config.to_witness_data ++
          List.replicate (65 * config.threshold) 0)).length -
          config.to_witness_data.length)) := by
    cases hcl : cur.lock with
    | none =>
      right
      simp only [hcl, Option.getD_none, List.length_append, List.length_replicate]
      exact ⟨by omega, ⟨config.threshold, by omega⟩⟩
    | some lfo =>
      simpa [hcl] using hwf cur lfo hcur hcl
  rw [placeAll_eq_spec config.to_witness_data.length sigs _ hwfl hs65]
  cases hpa : placeAllSpec (chunk65 ((cur.lock.getD (config.to_witness_data ++
      List.replicate (65 * config.threshold) 0)).drop config.to_witness_data.length)) sigs with
  | error e => rfl
  | ok bs => rfl

/-- The spec-side fold preserves full-slot sizes. -/
theorem placeAllSpec_all65 : ∀ (sigs : List (List Nat))
    (blocks bs : List (List Nat)), (∀ b ∈ blocks, b.length = 65) →
    (∀ s ∈ sigs, s.length = 65) → placeAllSpec blocks sigs = .ok bs →
    ∀ b ∈ bs, b.length = 65 := by
  intro sigs
  induction sigs with
  | nil =>
    intro blocks bs hb _ h
    simp only [placeAllSpec, Except.ok.injEq] at h
    subst h
    exact hb
  | cons sig rest ih =>
    intro blocks bs hb hs h
    simp only [placeAllSpec] at h
    cases hp : placeSlots sig blocks with
    | none => rw [hp] at h; exact Except.noConfusion h
    | some b1 =>
      rw [hp] at h
      exact ih b1 bs
        (placeSlots_all65 sig (hs sig (List.mem_cons_self sig rest)) blocks b1 hb hp)
        (fun s hsm => hs s (List.mem_cons_of_mem sig hsm)) h

/-- A second multisig signing of its own output is a no-op: same digest,
same signatures, every signature found already placed. -/
theorem multisigSignTx_idem (blake2b : List Nat → List Nat) (wallet : Wallet)
    (config : MultisigConfig) (tx tx' : TxView) (g : ScriptGroup) (i : Nat) (rest : List Nat)
    (hg : g.input_indices = i :: rest) (hi : i ∉ rest) (hninp : i < tx.inputs_len)
    (hsig : ∀ id m s, wallet.sign id m = some s →
      s.length = 65 ∧ s ≠ List.replicate 65 0)
    (hwlen : ((tx.witnesses.get? i).getD []).length < 2 ^ 30)
    (hcfg : config.to_witness_data.length + 65 * config.threshold < 2 ^ 30)
    (hwf : ∀ w lf, parseOrDefaultWitnessArgs
        (((padWitnesses tx.witnesses i).get? i).getD []) = some w →
      w.lock = some lf → lf.length ≤ config.to_witness_data.length ∨
        (config.to_witness_data.length ≤ lf.length ∧
          65 ∣ (lf.length - config.to_witness_data.length)))
    (hok : multisigSignTx blake2b wallet config tx g = .ok tx') :
    multisigSignTx blake2b wallet config tx' g = .ok tx' := by
  simp only [multisigSignTx, hg] at hok ⊢
  split at hok
  next e hmsg => exact Except.noConfusion hok
  next m hmsg =>
  split at hok
  next e hsigs => exact Except.noConfusion hok
  next sigs hsigs =>
  split at hok
  next hcur => exact Except.noConfusion hok
  next cur hcur =>
  split at hok
  next e hplace => exact Except.noConfusion hok
  next lf' hplace =>
  simp only [Except.ok.injEq] at hok
  subst hok
  have hW1len : i < (padWitnesses tx.witnesses i).length := padWitnesses_length_gt _ _
  have hwd : (((padWitnesses tx.witnesses i).get? i).getD []) =
      ((tx.witnesses.get? i).getD []) := by
    simp only [List.get?_eq_getElem?]
    exact padWitnesses_getElem _ _
  have hs65 : ∀ s ∈ sigs, s.length = 65 := by
    intro s hs
    obtain ⟨id, hid⟩ := collectSignatures_ok_mem wallet m _ sigs hsigs s hs
    exact (hsig _ _ _ hid).1
  have hsnz : ∀ s ∈ sigs, s ≠ List.replicate 65 0 := by
    intro s hs
    obtain ⟨id, hid⟩ := collectSignatures_ok_mem wallet m _ sigs hsigs s hs
    exact (hsig _ _ _ hid).2
  have hwfl : (cur.lock.getD (config.to_witness_data ++
        List.replicate (65 * config.threshold) 0)).length ≤ config.to_witness_data.length ∨
      (config.to_witness_data.length ≤ (cur.lock.getD (config.to_witness_data ++
        List.replicate (65 * config.threshold) 0)).length ∧
        65 ∣ ((cur.lock.getD (config.to_witness_data ++
          List.replicate (65 * config.threshold) 0)).length -
          config.to_witness_data.length)) := by
    cases hcl : cur.lock with
    | none =>
      right
      simp only [hcl, Option.getD_none, List.length_append, List.length_replicate]
      exact ⟨by omega, ⟨config.threshold, by omega⟩⟩
    | some lfo =>
      simpa [hcl] using hwf cur lfo hcur hcl
  have hlen' : lf'.length = (cur.lock.getD (config.to_witness_data ++
      List.replicate (65 * config.threshold) 0)).length :=
    placeAll_ok_length _ _ _ _ hplace
  have hlfb : (cur.lock.getD (config.to_witness_data ++
      List.replicate (65 * config.threshold) 0)).length < 2 ^ 30 := by
    cases hcl : cur.lock with
    | none =>
      simp only [hcl, Option.getD_none, List.length_append, List.length_replicate]
      omega
    | some lfo =>
      simp only [hcl, Option.getD_some]
      simp only [parseOrDefaultWitnessArgs] at hcur
      split at hcur
      · simp only [Option.some.injEq] at hcur
        subst hcur
        simp [WitnessArgs.empty] at hcl
      · obtain ⟨b1, -, -⟩ := parseWitnessArgs_ser_le _ _ hcur
        rw [hcl] at b1
        simp only [serializeBytesOpt, List.length_append, u32le_length] at b1
        rw [hwd] at b1
        omega
  have hf2 : (serializeBytesOpt cur.input_type).length ≤ 2 ^ 30 := by
    simp only [parseOrDefaultWitnessArgs] at hcur
    split at hcur
    · simp only [Option.some.injEq] at hcur
      subst hcur
      simp [WitnessArgs.empty, serializeBytesOpt]
    · obtain ⟨-, b2, -⟩ := parseWitnessArgs_ser_le _ _ hcur
      rw [hwd] at b2
      omega
  have hf3 : (serializeBytesOpt cur.output_type).length ≤ 2 ^ 30 := by
    simp only [parseOrDefaultWitnessArgs] at hcur
    split at hcur
    · simp only [Option.some.injEq] at hcur
      subst hcur
      simp [WitnessArgs.empty, serializeBytesOpt]
    · obtain ⟨-, -, b3⟩ := parseWitnessArgs_ser_le _ _ hcur
      rw [hwd] at b3
      omega
  have hbound : (serializeWitnessArgs { cur with lock := some lf' }).length < 2 ^ 32 := by
    rw [serializeWitnessArgs_length]
    have hl : (serializeBytesOpt ({ cur with lock := some lf' } : WitnessArgs).lock).length =
        4 + lf'.length := by
      simp [serializeBytesOpt_length]
    rw [hl]
    simp only at hf2 hf3 ⊢
    omega
  have hmsg2 := generateMessage_eq_of_set blake2b tx.hash tx.inputs_len
    (padWitnesses tx.witnesses i) g i rest
    (config.to_witness_data ++ List.replicate (65 * config.threshold) 0) lf' cur
    hg hW1len hi hninp hcur hbound
  have hset_len : i < ((padWitnesses tx.witnesses i).set i
      (serializeWitnessArgs { cur with lock := some lf' })).length := by
    rw [List.length_set]; exact hW1len
  have hget2 : ((((padWitnesses tx.witnesses i).set i
      (serializeWitnessArgs { cur with lock := some lf' }))[i]?).getD []) =
      serializeWitnessArgs { cur with lock := some lf' } := by
    rw [List.getElem?_set_self', List.getElem?_eq_getElem hW1len]
    rfl
  have hparse2 : parseOrDefaultWitnessArgs
      (serializeWitnessArgs { cur with lock := some lf' }) =
      some { cur with lock := some lf' } := by
    rw [parseOrDefaultWitnessArgs, if_neg (serializeWitnessArgs_ne_nil _)]
    exact parseWitnessArgs_serializeWitnessArgs _ hbound
  have hplace2 : placeAll config.to_witness_data.length lf' sigs = .ok lf' := by
    rw [placeAll_eq_spec _ _ _ hwfl hs65] at hplace
    cases hpa : placeAllSpec (chunk65 ((cur.lock.getD (config.to_witness_data ++
        List.replicate (65 * config.threshold) 0)).drop config.to_witness_data.length))
        sigs with
    | error e => rw [hpa] at hplace; exact Except.noConfusion hplace
    | ok bs =>
      rw [hpa] at hplace
      simp only [Except.ok.injEq] at hplace
      rcases hwfl with hA | ⟨hB1, hB2⟩
      · -- the lock field is shorter than the config data: no slots at all
        rw [List.drop_eq_nil_of_le hA] at hpa
        cases sigs with
        | cons sig rsigs =>
          simp [placeAllSpec, chunk65_eq, placeSlots] at hpa
        | nil => rfl
      · have hall : ∀ b ∈ chunk65 ((cur.lock.getD (config.to_witness_data ++
            List.replicate (65 * config.threshold) 0)).drop
              config.to_witness_data.length), b.length = 65 :=
          chunk65_all65 _ (by rw [List.length_drop]; exact hB2)
        have hallbs : ∀ b ∈ bs, b.length = 65 :=
          placeAllSpec_all65 sigs _ bs hall hs65 hpa
        have hidem : placeAllSpec bs sigs = .ok bs :=
          placeAllSpec_idem sigs _ bs hsnz hpa
        have htakelen : ((cur.lock.getD (config.to_witness_data ++
            List.replicate (65 * config.threshold) 0)).take
              config.to_witness_data.length).length = config.to_witness_data.length := by
          rw [List.length_take]; omega
        have hwfl' : lf'.length ≤ config.to_witness_data.length ∨
            (config.to_witness_data.length ≤ lf'.length ∧
              65 ∣ (lf'.length - config.to_witness_data.length)) := by
          rw [hlen']
          right
          exact ⟨hB1, hB2⟩
        rw [placeAll_eq_spec _ _ _ hwfl' hs65, ← hplace, List.drop_left' htakelen,
          chunk65_flatten_inv bs hallbs, hidem]
        dsimp only
        rw [List.take_left' htakelen]
  simp only [padWitnesses_of_lt _ _ hset_len, hmsg2, hmsg, hsigs, List.get?_eq_getElem?,
    hget2, hparse2, Option.getD_some, hplace2, List.set_set]

/-- C6 (amended): multisig signing starts from the existing `WitnessArgs.lock`
at the group's first input position when present (else the zero-lock of
config data followed by `65 * threshold` zero bytes), places each produced
signature by scanning 65-byte slots after the config data — stopping at a
slot equal to the signature, writing into the first all-zero slot — and
fails with `TooManySignatures` exactly when a signature exhausts the slots,
*provided* the pre-existing lock field consists of whole 65-byte slots after
the config data and the wallet's signatures are 65 bytes and non-zero (a
malformed lock field makes the slot slice panic instead — see the
counterexample).  Under those provisos a second application of the same
signer to its own output leaves the transaction unchanged. -/
theorem c6_multisig_lock_assembly (blake2b : List Nat → List Nat) (wallet : Wallet)
    (config : MultisigConfig) (tx : TxView) (g : ScriptGroup) (i : Nat) (rest : List Nat)
    (hg : g.input_indices = i :: rest) (hi : i ∉ rest) (hninp : i < tx.inputs_len)
    (hsig : ∀ id m s, wallet.sign id m = some s →
      s.length = 65 ∧ s ≠ List.replicate 65 0)
    (hwlen : ((tx.witnesses.get? i).getD []).length < 2 ^ 30)
    (hcfg : config.to_witness_data.length + 65 * config.threshold < 2 ^ 30)
    (hwf : ∀ w lf, parseOrDefaultWitnessArgs ((tx.witnesses.get? i).getD []) = some w →
      w.lock = some lf → lf.length ≤ config.to_witness_data.length ∨
        (config.to_witness_data.length ≤ lf.length ∧
          65 ∣ (lf.length - config.to_witness_data.length))) :
    multisigSignTx blake2b wallet config tx g = multisigSignSpec blake2b wallet config tx g ∧
    ∀ tx', multisigSignTx blake2b wallet config tx g = .ok tx' →
      multisigSignTx blake2b wallet config tx' g = .ok tx' := by
  have hwd : (((padWitnesses tx.witnesses i).get? i).getD []) =
      ((tx.witnesses.get? i).getD []) := by
    simp only [List.get?_eq_getElem?]
    exact padWitnesses_getElem _ _
  have hwf' : ∀ w lf, parseOrDefaultWitnessArgs
      (((padWitnesses tx.witnesses i).get? i).getD []) = some w →
      w.lock = some lf → lf.length ≤ config.to_witness_data.length ∨
        (config.to_witness_data.length ≤ lf.length ∧
          65 ∣ (lf.length - config.to_witness_data.length)) := by
    rw [hwd]
    exact hwf
  exact ⟨multisigSignTx_eq_spec blake2b wallet config tx g i rest hg
      (fun id m s h => (hsig id m s h).1) hwf',
    fun tx' hok => multisigSignTx_idem blake2b wallet config tx tx' g i rest hg hi hninp
      hsig hwlen hcfg hwf' hok⟩

/-- C6 witness: the amended claim instantiated on the 1-of-1 fixture — the
signer matches the spec-worded assembly and re-signing its output is a
no-op. -/
theorem c6_multisig_lock_assembly_witness :
    multisigSignTx hash0 w65 c6Config c6GoodTx g0 =
      multisigSignSpec hash0 w65 c6Config c6GoodTx g0 ∧
    multisigSignTx hash0 w65 c6Config c6Out g0 = .ok c6Out :=
  have h := c6_multisig_lock_assembly hash0 w65 c6Config c6GoodTx g0 0 []
    rfl (List.not_mem_nil 0) (by decide)
    (fun _ _ s hs => by
      injection hs with h2
      rw [← h2]
      exact ⟨by decide, by decide⟩)
    (by decide) (by decide)
    (fun w lf hp hl => by
      simp only [parseOrDefaultWitnessArgs] at hp
      rw [if_pos (by decide)] at hp
      injection hp with h2
      rw [← h2] at hl
      exact Option.noConfusion hl)
  ⟨h.1, h.2 c6Out (by decide)⟩
